import Mathlib

/-!
Verification of the numerical ODE integration and rigid/soft-body dynamics core
of the `phyeston` repository, as a shallow embedding in Lean 4.

Conventions of the embedding:
* `f64` values are modelled as elements of an arbitrary `LinearOrderedField α`
  (instantiated at `ℝ` for statements that need real `sqrt`/`sin`/`arccos`, and
  at `ℚ` for concrete executable witnesses).  Floating-point rounding is not
  modelled; arithmetic is exact.
* `f64::sqrt`, `f64::sin`, `f64::acos` are passed as explicit function
  parameters (`sq`, `sn`, `ac`) to the definitions that use them; real-valued
  statements instantiate them with `Real.sqrt`, `Real.sin`, `Real.arccos`.
* `nalgebra` fixed-size vectors `SVector<f64, N>` inside an ODE state are
  modelled as total functions `ℕ → α`; every index the source reads or writes
  is in bounds, so the values at indices `≥ N` are irrelevant padding.
* Rust code that panics is modelled with `Option` (`none` = panic).
-/

set_option linter.unusedSectionVars false

namespace Phyeston

variable {α : Type} [LinearOrderedField α]

/-- A 3-component vector of scalars (`nalgebra::Vector3<f64>` /
`nalgebra::Point3<f64>`; the source uses points and vectors interchangeably
through `p0 - p1` style arithmetic). -/
@[ext]
structure Vec3 (α : Type) where
  x : α
  y : α
  z : α
  deriving DecidableEq

namespace Vec3

/-- Componentwise addition. -/
def add (a b : Vec3 α) : Vec3 α := ⟨a.x + b.x, a.y + b.y, a.z + b.z⟩

/-- Componentwise subtraction. -/
def sub (a b : Vec3 α) : Vec3 α := ⟨a.x - b.x, a.y - b.y, a.z - b.z⟩

/-- Componentwise negation. -/
def neg (a : Vec3 α) : Vec3 α := ⟨-a.x, -a.y, -a.z⟩

/-- Scalar multiplication. -/
def smul (c : α) (a : Vec3 α) : Vec3 α := ⟨c * a.x, c * a.y, c * a.z⟩

/-- Componentwise division by a scalar (`v / c` in nalgebra). -/
def sdiv (a : Vec3 α) (c : α) : Vec3 α := ⟨a.x / c, a.y / c, a.z / c⟩

/-- The zero vector (`Vector3::zeros()`). -/
def zero : Vec3 α := ⟨0, 0, 0⟩

/-- Squared Euclidean norm. -/
def normSq (a : Vec3 α) : α := a.x * a.x + a.y * a.y + a.z * a.z

/-- Cross product (`Vector3::cross`). -/
def cross (a b : Vec3 α) : Vec3 α :=
  ⟨a.y * b.z - a.z * b.y, a.z * b.x - a.x * b.z, a.x * b.y - a.y * b.x⟩

instance : Add (Vec3 α) := ⟨add⟩
instance : Sub (Vec3 α) := ⟨sub⟩
instance : Neg (Vec3 α) := ⟨neg⟩
instance : Zero (Vec3 α) := ⟨zero⟩

@[simp] theorem add_def (a b : Vec3 α) :
    a + b = ⟨a.x + b.x, a.y + b.y, a.z + b.z⟩ := rfl

@[simp] theorem sub_def (a b : Vec3 α) :
    a - b = ⟨a.x - b.x, a.y - b.y, a.z - b.z⟩ := rfl

@[simp] theorem neg_def (a : Vec3 α) : -a = ⟨-a.x, -a.y, -a.z⟩ := rfl

@[simp] theorem zero_def : (0 : Vec3 α) = ⟨0, 0, 0⟩ := rfl

@[simp] theorem x_zero : (0 : Vec3 α).x = 0 := rfl

@[simp] theorem y_zero : (0 : Vec3 α).y = 0 := rfl

@[simp] theorem z_zero : (0 : Vec3 α).z = 0 := rfl

theorem add_comm' (a b : Vec3 α) : a + b = b + a := by
  simp [add_def]; refine ⟨?_, ?_, ?_⟩ <;> ring

theorem add_assoc' (a b c : Vec3 α) : a + b + c = a + (b + c) := by
  simp [add_def]; refine ⟨?_, ?_, ?_⟩ <;> ring

@[simp] theorem add_zero' (a : Vec3 α) : a + 0 = a := by
  simp [add_def]

@[simp] theorem zero_add' (a : Vec3 α) : (0 : Vec3 α) + a = a := by
  simp [add_def]

instance : Std.Associative (fun a b : Vec3 α => a + b) := ⟨add_assoc'⟩
instance : Std.Commutative (fun a b : Vec3 α => a + b) := ⟨add_comm'⟩

/-- Sum of a list of vectors. -/
def lsum : List (Vec3 α) → Vec3 α
  | [] => 0
  | v :: l => v + lsum l

@[simp] theorem lsum_nil : lsum ([] : List (Vec3 α)) = 0 := rfl

@[simp] theorem lsum_cons (v : Vec3 α) (l : List (Vec3 α)) :
    lsum (v :: l) = v + lsum l := rfl

end Vec3

/-- ODE state `State<DIM> { t: f64, y: SVector<f64, DIM> }`
(`src/numerics/ode.rs`); the vector is modelled as a total function on `ℕ`. -/
structure State (α : Type) where
  t : α
  y : ℕ → α

/-- An ODE right-hand side `PlainODE::derivative(state) -> SVector<f64, DIM>`. -/
def PlainODE (α : Type) : Type := State α → ℕ → α

/-- `RungeKuttaIV::step` (`src/numerics/ode/runge_kutta.rs`, lines 15-41),
transcribed stage by stage.  Note that the source computes the fourth stage
`k4` at time `t + h * 0.5` (line 33), not at `t + h`. -/
def rk4Step (f : PlainODE α) (h : α) (s : State α) : State α :=
  let t := s.t
  let y := s.y
  let k1 := f s
  let k2 := f ⟨t + h * (1/2), fun j => y j + k1 j * h * (1/2)⟩
  let k3 := f ⟨t + h * (1/2), fun j => y j + k2 j * h * (1/2)⟩
  let k4 := f ⟨t + h * (1/2), fun j => y j + k3 j * h⟩
  ⟨t + h, fun j => y j + (k1 j + k2 j * 2 + k3 j * 2 + k4 j) * h / 6⟩

/-- The classic fourth-order Runge-Kutta step exactly as the specification
writes it (`k4 = f(t+h, y+h·k3)`), for comparison with `rk4Step`. -/
def rk4StepSpec (f : PlainODE α) (h : α) (s : State α) : State α :=
  let t := s.t
  let y := s.y
  let k1 := f s
  let k2 := f ⟨t + h * (1/2), fun j => y j + k1 j * h * (1/2)⟩
  let k3 := f ⟨t + h * (1/2), fun j => y j + k2 j * h * (1/2)⟩
  let k4 := f ⟨t + h, fun j => y j + k3 j * h⟩
  ⟨t + h, fun j => y j + (k1 j + k2 j * 2 + k3 j * 2 + k4 j) * h / 6⟩

/-- The time-dependent scalar ODE `dy/dt = t`, used to separate the two
Runge-Kutta variants. -/
def odeDyDtEqT : PlainODE ℚ := fun s _ => s.t

/-- C1: the claim states that `RungeKuttaIV::step` evaluates the fourth stage
at time `t + h` (classic RK4).  The code evaluates it at `t + h * 0.5`
(`runge_kutta.rs` line 33).  On the ODE `dy/dt = t` from `(t, y) = (0, 0)`
with `h = 1`, the code produces `y' = 5/12` while the claimed classic RK4
formula produces `y' = 1/2`; both update `t' = t + h`. -/
theorem rk4_fourth_stage_time_bug :
    (rk4Step odeDyDtEqT 1 ⟨0, fun _ => 0⟩).y 0 = 5/12 ∧
    (rk4StepSpec odeDyDtEqT 1 ⟨0, fun _ => 0⟩).y 0 = 1/2 ∧
    (rk4Step odeDyDtEqT 1 ⟨0, fun _ => 0⟩).t = 1 ∧
    (5/12 : ℚ) ≠ 1/2 := by
  refine ⟨?_, ?_, ?_, by norm_num⟩ <;> norm_num [rk4Step, rk4StepSpec, odeDyDtEqT]

/-! ## JellyODE: spring force and wall collisions (`src/simulators/jelly.rs`) -/

namespace Jelly

/-- `ROOM_HALF_SIZE` (`jelly.rs` line 13). -/
def roomHalfSize : α := 5

/-- `JellyODE::MAX_COLLISIONS` (`jelly.rs` line 46). -/
def maxCollisions : ℕ := 100

/-- `JellyODE::spring_force(p_0, p_1, length, spring_constant)` (`jelly.rs`
lines 83-97): the force acting on `p_1`, zero when the two points coincide.
`sq` stands for `f64::sqrt` (used through `.norm()`). -/
def springForce (sq : α → α) (p0 p1 : Vec3 α) (length springConstant : α) :
    Vec3 α :=
  let diff := p0 - p1
  let dist := sq (Vec3.normSq diff)
  if dist = 0 then 0
  else Vec3.smul (springConstant * (dist - length)) (Vec3.sdiv diff dist)

/-- `JellyODE::collide_position_coordinate(c, vc)` (`jelly.rs` lines 230-242),
returning the updated coordinate, the updated velocity component, and whether
a collision occurred. -/
def collideCoord (c vc : α) : α × α × Bool :=
  if c < -roomHalfSize then (-(c + roomHalfSize) - roomHalfSize, -vc, true)
  else if c > roomHalfSize then (-(c - roomHalfSize) + roomHalfSize, -vc, true)
  else (c, vc, false)

/-- `JellyODE::collide(position, velocity)` (`jelly.rs` lines 245-257).  The
Rust source short-circuits through `||`, so only the first colliding axis is
reflected in one pass; on any collision all three velocity components are
scaled by the elasticity coefficient `e`. -/
def collide (e : α) (p v : Vec3 α) : Vec3 α × Vec3 α × Bool :=
  let rx := collideCoord p.x v.x
  if rx.2.2 then
    (⟨rx.1, p.y, p.z⟩, Vec3.smul e ⟨rx.2.1, v.y, v.z⟩, true)
  else
    let ry := collideCoord p.y v.y
    if ry.2.2 then
      (⟨p.x, ry.1, p.z⟩, Vec3.smul e ⟨v.x, ry.2.1, v.z⟩, true)
    else
      let rz := collideCoord p.z v.z
      if rz.2.2 then
        (⟨p.x, p.y, rz.1⟩, Vec3.smul e ⟨v.x, v.y, rz.2.1⟩, true)
      else (p, v, false)

/-- The per-point retry loop of `JellyODE::apply_collisions` (`jelly.rs` lines
261-281): repeat `collide` while it reports a collision, at most `fuel` times
(`fuel = maxCollisions = 100` at the call site). -/
def collideLoop (e : α) : ℕ → Vec3 α × Vec3 α → Vec3 α × Vec3 α
  | 0, pv => pv
  | n + 1, (p, v) =>
    let r := collide e p v
    if r.2.2 then collideLoop e n (r.1, r.2.1) else (p, v)

/-- Position vector of lattice point `p` read from the flat state vector
(`state.y[i], state.y[i+1], state.y[i+2]` with `i = 3 * p`). -/
def pointPos (y : ℕ → α) (p : ℕ) : Vec3 α := ⟨y (3 * p), y (3 * p + 1), y (3 * p + 2)⟩

/-- Velocity vector of lattice point `p` read from the flat state vector
(offset by `SPACE_DIM = 192`). -/
def pointVel (y : ℕ → α) (p : ℕ) : Vec3 α :=
  ⟨y (192 + 3 * p), y (192 + 3 * p + 1), y (192 + 3 * p + 2)⟩

/-- Write back position `pv.1` and velocity `pv.2` of lattice point `p` into
the flat state vector. -/
def writePoint (p : ℕ) (pv : Vec3 α × Vec3 α) (y : ℕ → α) : ℕ → α := fun j =>
  if j = 3 * p then pv.1.x
  else if j = 3 * p + 1 then pv.1.y
  else if j = 3 * p + 2 then pv.1.z
  else if j = 192 + 3 * p then pv.2.x
  else if j = 192 + 3 * p + 1 then pv.2.y
  else if j = 192 + 3 * p + 2 then pv.2.z
  else y j

/-- Processing of one lattice point by `apply_collisions`: run the retry loop
on its position/velocity and store the result.  (The source writes back inside
the loop on each collision; writing the final values once is equivalent, since
a pass without collision leaves position and velocity untouched.) -/
def stepPoint (e : α) (y : ℕ → α) (p : ℕ) : ℕ → α :=
  writePoint p (collideLoop e maxCollisions (pointPos y p, pointVel y p)) y

/-- `JellyODE::apply_collisions(state)` (`jelly.rs` lines 259-285): every one
of the 64 lattice points is processed in order; the time component is left
untouched. -/
def applyCollisions (e : α) (s : State α) : State α :=
  ⟨s.t, (List.range 64).foldl (fun y p => stepPoint e y p) s.y⟩

/-- The six flat-vector indices belonging to lattice point `p`. -/
def slots (p : ℕ) : List ℕ :=
  [3 * p, 3 * p + 1, 3 * p + 2, 192 + 3 * p, 192 + 3 * p + 1, 192 + 3 * p + 2]

theorem writePoint_of_notMem {p : ℕ} {pv : Vec3 α × Vec3 α} {y : ℕ → α} {j : ℕ}
    (h : j ∉ slots p) : writePoint p pv y j = y j := by
  simp only [slots, List.mem_cons, List.not_mem_nil, or_false, not_or] at h
  obtain ⟨h1, h2, h3, h4, h5, h6⟩ := h
  simp [writePoint, h1, h2, h3, h4, h5, h6]

theorem stepPoint_of_notMem {e : α} {y : ℕ → α} {q j : ℕ} (h : j ∉ slots q) :
    stepPoint e y q j = y j := writePoint_of_notMem h

theorem slots_disjoint {p q j : ℕ} (hp : p < 64) (hq : q < 64) (hne : p ≠ q)
    (hj : j ∈ slots p) : j ∉ slots q := by
  simp only [slots, List.mem_cons, List.not_mem_nil, or_false] at hj ⊢
  omega

/-- Folding `stepPoint` over a list of points not containing `p` does not
change the slots of `p` (all points are `< 64`). -/
theorem foldl_stepPoint_of_notMem {e : α} {p j : ℕ} (hp : p < 64)
    (hj : j ∈ slots p) :
    ∀ (L : List ℕ) (y : ℕ → α), (∀ q ∈ L, q < 64) → p ∉ L →
      (L.foldl (fun y q => stepPoint e y q) y) j = y j := by
  intro L
  induction L with
  | nil => intro y _ _; rfl
  | cons a L ih =>
    intro y hlt hnot
    simp only [List.foldl_cons]
    rw [ih _ (fun q hq => hlt q (List.mem_cons_of_mem _ hq))
      (fun h => hnot (List.mem_cons_of_mem _ h))]
    exact stepPoint_of_notMem
      (slots_disjoint hp (hlt a (List.mem_cons_self a L))
        (fun h => hnot (h ▸ List.mem_cons_self a L)) hj)

/-- `stepPoint` at a slot of `p` depends only on the slots of `p` of its
input. -/
theorem stepPoint_congr {e : α} {y y' : ℕ → α} {p j : ℕ}
    (h : ∀ k ∈ slots p, y k = y' k) (hj : j ∈ slots p) :
    stepPoint e y p j = stepPoint e y' p j := by
  have hpos : pointPos y p = pointPos y' p := by
    simp only [pointPos]
    rw [h _ (by simp [slots]), h _ (by simp [slots]), h _ (by simp [slots])]
  have hvel : pointVel y p = pointVel y' p := by
    simp only [pointVel]
    rw [h _ (by simp [slots]), h _ (by simp [slots]), h _ (by simp [slots])]
  simp only [slots, List.mem_cons, List.not_mem_nil, or_false] at hj
  rcases hj with hj | hj | hj | hj | hj | hj <;>
    simp [stepPoint, writePoint, hpos, hvel, hj, h]

/-- Main decomposition lemma: the result of `apply_collisions` at the slots of
point `p < 64` is what a single `stepPoint` on the original vector produces
there. -/
theorem applyCollisions_point {e : α} {s : State α} {p j : ℕ} (hp : p < 64)
    (hj : j ∈ slots p) :
    (applyCollisions e s).y j = stepPoint e s.y p j := by
  have hmem : p ∈ List.range 64 := List.mem_range.mpr hp
  obtain ⟨L1, L2, hsplit⟩ := List.append_of_mem hmem
  have hnd : (List.range 64).Nodup := List.nodup_range 64
  have hlt : ∀ q ∈ List.range 64, q < 64 := fun q hq => List.mem_range.mp hq
  rw [hsplit] at hnd
  have hp1 : p ∉ L1 := fun hmem1 =>
    List.disjoint_of_nodup_append hnd hmem1 (List.mem_cons_self p L2)
  have hp2 : p ∉ L2 := fun h =>
    (List.nodup_cons.mp (List.Nodup.of_append_right hnd)).1 h
  have hlt1 : ∀ q ∈ L1, q < 64 := fun q hq =>
    hlt q (hsplit ▸ List.mem_append_left _ hq)
  have hlt2 : ∀ q ∈ L2, q < 64 := fun q hq =>
    hlt q (hsplit ▸ List.mem_append_right _ (List.mem_cons_of_mem _ hq))
  simp only [applyCollisions, hsplit, List.foldl_append, List.foldl_cons]
  rw [foldl_stepPoint_of_notMem hp hj L2 _ hlt2 hp2]
  exact stepPoint_congr
    (fun k hk => foldl_stepPoint_of_notMem hp hk L1 s.y hlt1 hp1) hj

theorem collideCoord_low {c : α} (vc : α) (h : c < -roomHalfSize) :
    collideCoord c vc = (2 * (-roomHalfSize) - c, -vc, true) := by
  rw [collideCoord, if_pos h]
  norm_num [roomHalfSize]
  ring

theorem collideCoord_high {c : α} (vc : α) (h : roomHalfSize < c) :
    collideCoord c vc = (2 * roomHalfSize - c, -vc, true) := by
  rw [collideCoord, if_neg (by rw [not_lt]; norm_num [roomHalfSize] at h ⊢; linarith),
    if_pos h]
  norm_num [roomHalfSize]
  ring

theorem collideCoord_inbounds {c : α} (vc : α) (h1 : -roomHalfSize ≤ c)
    (h2 : c ≤ roomHalfSize) : collideCoord c vc = (c, vc, false) := by
  rw [collideCoord, if_neg (not_lt.mpr h1), if_neg (not_lt.mpr h2)]

/-- `collide` on a point whose three position coordinates all lie inside the
room reports no collision and changes nothing. -/
theorem collide_inbounds {p v : Vec3 α} (e : α)
    (hx1 : -roomHalfSize ≤ p.x) (hx2 : p.x ≤ roomHalfSize)
    (hy1 : -roomHalfSize ≤ p.y) (hy2 : p.y ≤ roomHalfSize)
    (hz1 : -roomHalfSize ≤ p.z) (hz2 : p.z ≤ roomHalfSize) :
    collide e p v = (p, v, false) := by
  simp only [collide, collideCoord_inbounds _ hx1 hx2,
    collideCoord_inbounds _ hy1 hy2, collideCoord_inbounds _ hz1 hz2]
  simp

theorem collideLoop_succ (e : α) (n : ℕ) (p v : Vec3 α) :
    collideLoop e (n + 1) (p, v) =
      if (collide e p v).2.2 then
        collideLoop e n ((collide e p v).1, (collide e p v).2.1)
      else (p, v) := rfl

theorem collideLoop_inbounds {p v : Vec3 α} (e : α) (n : ℕ)
    (hx1 : -roomHalfSize ≤ p.x) (hx2 : p.x ≤ roomHalfSize)
    (hy1 : -roomHalfSize ≤ p.y) (hy2 : p.y ≤ roomHalfSize)
    (hz1 : -roomHalfSize ≤ p.z) (hz2 : p.z ≤ roomHalfSize) :
    collideLoop e n (p, v) = (p, v) := by
  cases n with
  | zero => rfl
  | succ n =>
    rw [collideLoop_succ, collide_inbounds e hx1 hx2 hy1 hy2 hz1 hz2]
    simp

theorem writePoint_eval (p : ℕ) (pv : Vec3 α × Vec3 α) (y : ℕ → α) :
    writePoint p pv y (3 * p) = pv.1.x ∧
    writePoint p pv y (3 * p + 1) = pv.1.y ∧
    writePoint p pv y (3 * p + 2) = pv.1.z ∧
    writePoint p pv y (192 + 3 * p) = pv.2.x ∧
    writePoint p pv y (192 + 3 * p + 1) = pv.2.y ∧
    writePoint p pv y (192 + 3 * p + 2) = pv.2.z := by
  refine ⟨?_, ?_, ?_, ?_, ?_, ?_⟩ <;> simp only [writePoint] <;>
    split_ifs <;> first | rfl | omega

/-- C10: `apply_collisions` leaves the time component unchanged, and every
lattice point whose three position coordinates lie within
`[-ROOM_HALF_SIZE, ROOM_HALF_SIZE]` keeps its three position entries and its
three velocity entries unchanged. -/
theorem apply_collisions_frame_effect (e : α) (s : State α) :
    (applyCollisions e s).t = s.t ∧
    (∀ p : ℕ, p < 64 →
      -roomHalfSize ≤ s.y (3 * p) → s.y (3 * p) ≤ roomHalfSize →
      -roomHalfSize ≤ s.y (3 * p + 1) → s.y (3 * p + 1) ≤ roomHalfSize →
      -roomHalfSize ≤ s.y (3 * p + 2) → s.y (3 * p + 2) ≤ roomHalfSize →
      ∀ j ∈ slots p, (applyCollisions e s).y j = s.y j) := by
  refine ⟨rfl, fun p hp hx1 hx2 hy1 hy2 hz1 hz2 j hj => ?_⟩
  rw [applyCollisions_point hp hj]
  have hloop : collideLoop e maxCollisions (pointPos s.y p, pointVel s.y p) =
      (pointPos s.y p, pointVel s.y p) :=
    collideLoop_inbounds e _ hx1 hx2 hy1 hy2 hz1 hz2
  have hw := writePoint_eval p (pointPos s.y p, pointVel s.y p) s.y
  simp only [slots, List.mem_cons, List.not_mem_nil, or_false] at hj
  rcases hj with hj | hj | hj | hj | hj | hj <;>
    subst hj <;>
    simp only [stepPoint, hloop] <;>
    simp only [hw.1, hw.2.1, hw.2.2.1, hw.2.2.2.1, hw.2.2.2.2.1,
      hw.2.2.2.2.2] <;>
    simp [pointPos, pointVel]

/-- Witness for C10 at a concrete all-zero state over `ℚ` (every point is
inside the room). -/
theorem apply_collisions_frame_effect_witness :
    (applyCollisions (1/10 : ℚ) ⟨0, fun _ => 0⟩).t = 0 ∧
    (applyCollisions (1/10 : ℚ) ⟨0, fun _ => 0⟩).y 0 = 0 ∧
    (applyCollisions (1/10 : ℚ) ⟨0, fun _ => 0⟩).y 192 = 0 := by
  have h := apply_collisions_frame_effect (1/10 : ℚ) ⟨0, fun _ => 0⟩
  refine ⟨h.1, ?_, ?_⟩
  · have := h.2 0 (by norm_num) (by norm_num [roomHalfSize])
      (by norm_num [roomHalfSize]) (by norm_num [roomHalfSize])
      (by norm_num [roomHalfSize]) (by norm_num [roomHalfSize])
      (by norm_num [roomHalfSize]) 0 (by simp [slots])
    simpa using this
  · have := h.2 0 (by norm_num) (by norm_num [roomHalfSize])
      (by norm_num [roomHalfSize]) (by norm_num [roomHalfSize])
      (by norm_num [roomHalfSize]) (by norm_num [roomHalfSize])
      (by norm_num [roomHalfSize]) 192 (by simp [slots])
    simpa using this

/-- C3: collisions reflect an out-of-room coordinate about the wall
(`c' = 2·wall − c`) and negate the same axis velocity component; the per-point
retry loop (at most `MAX_COLLISIONS = 100` passes) scales all three velocity
components by the elasticity coefficient on each colliding pass.  A single
point carried past `+ROOM_HALF_SIZE` on x (but not past the opposite wall,
i.e. not beyond `3·ROOM_HALF_SIZE`) ends with its x-position reflected back
inside `[-ROOM_HALF_SIZE, ROOM_HALF_SIZE]`, its x-velocity sign-flipped and
scaled by the elasticity coefficient, and the other two velocity components
scaled by the elasticity coefficient. -/
theorem apply_collisions_reflection (e : α) (s : State α) (p : ℕ)
    (hp : p < 64)
    (hx : roomHalfSize < s.y (3 * p))
    (hx3 : s.y (3 * p) < 3 * roomHalfSize)
    (hy1 : -roomHalfSize ≤ s.y (3 * p + 1)) (hy2 : s.y (3 * p + 1) ≤ roomHalfSize)
    (hz1 : -roomHalfSize ≤ s.y (3 * p + 2)) (hz2 : s.y (3 * p + 2) ≤ roomHalfSize) :
    (∀ c vc : α, roomHalfSize < c →
      collideCoord c vc = (2 * roomHalfSize - c, -vc, true)) ∧
    (∀ c vc : α, c < -roomHalfSize →
      collideCoord c vc = (2 * (-roomHalfSize) - c, -vc, true)) ∧
    (applyCollisions e s).y (3 * p) = 2 * roomHalfSize - s.y (3 * p) ∧
    -roomHalfSize ≤ 2 * roomHalfSize - s.y (3 * p) ∧
    2 * roomHalfSize - s.y (3 * p) ≤ roomHalfSize ∧
    (applyCollisions e s).y (3 * p + 1) = s.y (3 * p + 1) ∧
    (applyCollisions e s).y (3 * p + 2) = s.y (3 * p + 2) ∧
    (applyCollisions e s).y (192 + 3 * p) = -s.y (192 + 3 * p) * e ∧
    (applyCollisions e s).y (192 + 3 * p + 1) = s.y (192 + 3 * p + 1) * e ∧
    (applyCollisions e s).y (192 + 3 * p + 2) = s.y (192 + 3 * p + 2) * e := by
  have hrhs : (roomHalfSize : α) = 5 := rfl
  have hb1 : -roomHalfSize ≤ 2 * roomHalfSize - s.y (3 * p) := by
    rw [hrhs] at hx3 ⊢; linarith
  have hb2 : 2 * roomHalfSize - s.y (3 * p) ≤ roomHalfSize := by
    rw [hrhs] at hx ⊢; linarith
  -- evaluate the first `collide` pass: the x coordinate reflects off the
  -- `+ROOM_HALF_SIZE` wall and all velocity components are scaled
  have hc1 : collide e (pointPos s.y p) (pointVel s.y p) =
      (⟨2 * roomHalfSize - s.y (3 * p), s.y (3 * p + 1), s.y (3 * p + 2)⟩,
       Vec3.smul e ⟨-s.y (192 + 3 * p), s.y (192 + 3 * p + 1),
         s.y (192 + 3 * p + 2)⟩, true) := by
    simp only [collide, pointPos, pointVel, collideCoord_high _ hx]
    simp
  -- the second pass finds the point inside the room and stops the loop
  have hloop : collideLoop e maxCollisions (pointPos s.y p, pointVel s.y p) =
      (⟨2 * roomHalfSize - s.y (3 * p), s.y (3 * p + 1), s.y (3 * p + 2)⟩,
       Vec3.smul e ⟨-s.y (192 + 3 * p), s.y (192 + 3 * p + 1),
         s.y (192 + 3 * p + 2)⟩) := by
    rw [maxCollisions, show (100 : ℕ) = 99 + 1 from rfl, collideLoop_succ, hc1]
    simp only [if_true]
    exact collideLoop_inbounds e 99 hb1 hb2 hy1 hy2 hz1 hz2
  have hw := writePoint_eval p
    (⟨⟨2 * roomHalfSize - s.y (3 * p), s.y (3 * p + 1), s.y (3 * p + 2)⟩,
      Vec3.smul e ⟨-s.y (192 + 3 * p), s.y (192 + 3 * p + 1),
        s.y (192 + 3 * p + 2)⟩⟩) s.y
  refine ⟨fun c vc h => collideCoord_high vc h,
    fun c vc h => collideCoord_low vc h, ?_, hb1, hb2, ?_, ?_, ?_, ?_, ?_⟩ <;>
    rw [applyCollisions_point hp (by simp [slots])] <;>
    simp only [stepPoint, hloop] <;>
    simp only [hw.1, hw.2.1, hw.2.2.1, hw.2.2.2.1, hw.2.2.2.2.1,
      hw.2.2.2.2.2] <;>
    simp only [Vec3.smul] <;> ring

/-- Witness for C3 over `ℚ`: point 0 at position `(7, 0, 0)` with velocity
`(10, 0, 0)` and elasticity coefficient `1/10` ends at `x = 3` with
x-velocity `-1`. -/
theorem apply_collisions_reflection_witness :
    (applyCollisions (1/10 : ℚ)
      ⟨0, fun j => if j = 0 then 7 else if j = 192 then 10 else 0⟩).y 0 = 3 ∧
    (applyCollisions (1/10 : ℚ)
      ⟨0, fun j => if j = 0 then 7 else if j = 192 then 10 else 0⟩).y 192 = -1 := by
  have h := apply_collisions_reflection (1/10 : ℚ)
    ⟨0, fun j => if j = 0 then 7 else if j = 192 then 10 else 0⟩ 0
    (by norm_num) (by norm_num [roomHalfSize]) (by norm_num [roomHalfSize])
    (by norm_num [roomHalfSize]) (by norm_num [roomHalfSize])
    (by norm_num [roomHalfSize]) (by norm_num [roomHalfSize])
  obtain ⟨-, -, h3, -, -, -, -, h8, -, -⟩ := h
  constructor
  · rw [h3]; norm_num [roomHalfSize]
  · rw [h8]; norm_num

end Jelly

/-- Squared norms of vectors are nonnegative. -/
theorem vec3_normSq_nonneg (a : Vec3 α) : 0 ≤ Vec3.normSq a := by
  have hx := mul_self_nonneg a.x
  have hy := mul_self_nonneg a.y
  have hz := mul_self_nonneg a.z
  simp only [Vec3.normSq]; linarith

/-- A vector has squared norm zero exactly when it is the zero vector. -/
theorem vec3_normSq_eq_zero_iff {a : Vec3 α} :
    Vec3.normSq a = 0 ↔ a = (0 : Vec3 α) := by
  constructor
  · intro h
    have hx := mul_self_nonneg a.x
    have hy := mul_self_nonneg a.y
    have hz := mul_self_nonneg a.z
    simp only [Vec3.normSq] at h
    have hx0 : a.x * a.x = 0 := le_antisymm (by linarith) hx
    have hy0 : a.y * a.y = 0 := le_antisymm (by linarith) hy
    have hz0 : a.z * a.z = 0 := le_antisymm (by linarith) hz
    simp only [Vec3.zero_def, Vec3.ext_iff]
    exact ⟨mul_self_eq_zero.mp hx0, mul_self_eq_zero.mp hy0,
      mul_self_eq_zero.mp hz0⟩
  · rintro rfl; simp [Vec3.normSq]

theorem vec3_sub_eq_zero_iff {a b : Vec3 α} : a - b = 0 ↔ a = b := by
  simp only [Vec3.sub_def, Vec3.zero_def, Vec3.ext_iff, sub_eq_zero]

/-- C8: the spring force acting on `p1` is
`k · (p0 − p1)/|p0 − p1| · (|p0 − p1| − L)` whenever the two points are
distinct (so the distance is strictly positive), and is exactly the zero
vector when the two points coincide: the division by the distance is guarded,
the function is total, and coincident points raise no error. -/
theorem spring_force_formula (p0 p1 : Vec3 ℝ) (length springConstant : ℝ) :
    (p0 = p1 → Jelly.springForce Real.sqrt p0 p1 length springConstant = 0) ∧
    (p0 ≠ p1 →
      0 < Real.sqrt (Vec3.normSq (p0 - p1)) ∧
      Jelly.springForce Real.sqrt p0 p1 length springConstant =
        Vec3.smul
          (springConstant / Real.sqrt (Vec3.normSq (p0 - p1)) *
            (Real.sqrt (Vec3.normSq (p0 - p1)) - length))
          (p0 - p1)) := by
  constructor
  · intro h
    rw [h]
    simp [Jelly.springForce, Vec3.normSq, Vec3.sub_def]
  · intro hne
    have hpos : 0 < Vec3.normSq (p0 - p1) := by
      rcases lt_or_eq_of_le (vec3_normSq_nonneg (p0 - p1)) with h | h
      · exact h
      · exact absurd (vec3_sub_eq_zero_iff.mp (vec3_normSq_eq_zero_iff.mp h.symm))
          hne
    have hsq : 0 < Real.sqrt (Vec3.normSq (p0 - p1)) := Real.sqrt_pos.mpr hpos
    refine ⟨hsq, ?_⟩
    rw [Jelly.springForce, if_neg (ne_of_gt hsq)]
    simp only [Vec3.smul, Vec3.sdiv, Vec3.ext_iff]
    refine ⟨?_, ?_, ?_⟩ <;> ring

/-- Witness for C8: concrete distinct points `(3,0,0)` and `(0,0,0)`, and
concrete coincident points. -/
theorem spring_force_formula_witness :
    Jelly.springForce Real.sqrt ⟨1, 2, 3⟩ ⟨1, 2, 3⟩ (7 : ℝ) 4 = 0 ∧
    (0 < Real.sqrt (Vec3.normSq ((⟨3, 0, 0⟩ : Vec3 ℝ) - ⟨0, 0, 0⟩)) ∧
      Jelly.springForce Real.sqrt (⟨3, 0, 0⟩ : Vec3 ℝ) ⟨0, 0, 0⟩ 1 2 =
        Vec3.smul
          (2 / Real.sqrt (Vec3.normSq ((⟨3, 0, 0⟩ : Vec3 ℝ) - ⟨0, 0, 0⟩)) *
            (Real.sqrt (Vec3.normSq ((⟨3, 0, 0⟩ : Vec3 ℝ) - ⟨0, 0, 0⟩)) - 1))
          ((⟨3, 0, 0⟩ : Vec3 ℝ) - ⟨0, 0, 0⟩)) :=
  ⟨(spring_force_formula ⟨1, 2, 3⟩ ⟨1, 2, 3⟩ 7 4).1 rfl,
   (spring_force_formula ⟨3, 0, 0⟩ ⟨0, 0, 0⟩ 1 2).2
     (by norm_num [Vec3.ext_iff])⟩

/-! ## Corner anchoring (`JellyODE::corner_force`, `jelly.rs` lines 99-140) -/

/-- A 4-component homogeneous vector. -/
structure Vec4 (α : Type) where
  x : α
  y : α
  z : α
  w : α
  deriving DecidableEq

/-- A 4×4 homogeneous transform matrix (`nalgebra::Matrix4<f64>`), row-major
fields `mRC`. -/
structure Mat4 (α : Type) where
  m00 : α
  m01 : α
  m02 : α
  m03 : α
  m10 : α
  m11 : α
  m12 : α
  m13 : α
  m20 : α
  m21 : α
  m22 : α
  m23 : α
  m30 : α
  m31 : α
  m32 : α
  m33 : α
  deriving DecidableEq

/-- Matrix–vector product. -/
def Mat4.mulVec (m : Mat4 α) (v : Vec4 α) : Vec4 α :=
  ⟨m.m00 * v.x + m.m01 * v.y + m.m02 * v.z + m.m03 * v.w,
   m.m10 * v.x + m.m11 * v.y + m.m12 * v.z + m.m13 * v.w,
   m.m20 * v.x + m.m21 * v.y + m.m22 * v.z + m.m23 * v.w,
   m.m30 * v.x + m.m31 * v.y + m.m32 * v.z + m.m33 * v.w⟩

/-- `Point3::to_homogeneous()`: append a `1`. -/
def toHomogeneousPt (p : Vec3 α) : Vec4 α := ⟨p.x, p.y, p.z, 1⟩

/-- `Point3::from_homogeneous(v)`: `None` when the last coordinate is zero,
otherwise divide through by it. -/
def fromHomogeneousPt (v : Vec4 α) : Option (Vec3 α) :=
  if v.w = 0 then none else some ⟨v.x / v.w, v.y / v.w, v.z / v.w⟩

namespace Jelly

/-- `JellyODE::corner_coord(i)` (`jelly.rs` lines 99-105): `-1` for index `0`,
`1` otherwise. -/
def cornerCoord (i : ℕ) : α := if i = 0 then -1 else 1

/-- `JellyODE::corner_point(transform, u, v, w)` (`jelly.rs` lines 107-118):
the control-frame transform applied to the unit-cube corner, with an
`unwrap_or(origin)` fallback. -/
def cornerPoint (T : Mat4 α) (u v w : ℕ) : Vec3 α :=
  (fromHomogeneousPt
    (T.mulVec (toHomogeneousPt ⟨cornerCoord u, cornerCoord v, cornerCoord w⟩))).getD
    ⟨0, 0, 0⟩

/-- `JellyODE::corner_force(frame_transform, state, u, v, w)` (`jelly.rs`
lines 120-140): zero except at the 8 corner lattice points, where it is a
zero-rest-length spring toward the transformed cube corner. -/
def cornerForce (sq : α → α) (k : α) (T : Mat4 α) (s : State α)
    (u v w : ℕ) : Vec3 α :=
  if (u ≠ 3 ∧ u ≠ 0) ∨ (v ≠ 3 ∧ v ≠ 0) ∨ (w ≠ 3 ∧ w ≠ 0) then 0
  else
    let idx := (w + v * 4 + u * 16) * 3
    springForce sq (cornerPoint T u v w) ⟨s.y idx, s.y (idx + 1), s.y (idx + 2)⟩
      0 k

/-- The image of a point under the affine map described by the claim: the
linear 3×3 block applied to the point plus the translation column. -/
def affineImage (T : Mat4 α) (p : Vec3 α) : Vec3 α :=
  ⟨T.m00 * p.x + T.m01 * p.y + T.m02 * p.z + T.m03,
   T.m10 * p.x + T.m11 * p.y + T.m12 * p.z + T.m13,
   T.m20 * p.x + T.m21 * p.y + T.m22 * p.z + T.m23⟩

/-- C5: for an affine control-frame transform (bottom row `(0,0,0,1)`, which
is the shape `ControlFrameTransform::compose` always produces), the corner
force is the zero vector unless `u`, `v` and `w` each lie in `{0, 3}`; at the
8 corner points it is the zero-rest-length Hookean spring force with constant
`corner_spring_constant` pulling the point toward the image of the unit-cube
corner `(±1, ±1, ±1)` under the transform (sign `-1` for index `0`, `+1` for
index `3`). -/
theorem corner_force_spec (sq : α → α) (k : α) (T : Mat4 α) (s : State α)
    (u v w : ℕ)
    (hT : T.m30 = 0 ∧ T.m31 = 0 ∧ T.m32 = 0 ∧ T.m33 = 1) :
    (¬((u = 0 ∨ u = 3) ∧ (v = 0 ∨ v = 3) ∧ (w = 0 ∨ w = 3)) →
      cornerForce sq k T s u v w = 0) ∧
    ((u = 0 ∨ u = 3) → (v = 0 ∨ v = 3) → (w = 0 ∨ w = 3) →
      cornerForce sq k T s u v w =
        springForce sq
          (affineImage T ⟨cornerCoord u, cornerCoord v, cornerCoord w⟩)
          ⟨s.y ((w + v * 4 + u * 16) * 3), s.y ((w + v * 4 + u * 16) * 3 + 1),
            s.y ((w + v * 4 + u * 16) * 3 + 2)⟩ 0 k ∧
      cornerPoint T u v w =
        affineImage T ⟨cornerCoord u, cornerCoord v, cornerCoord w⟩) := by
  obtain ⟨h30, h31, h32, h33⟩ := hT
  have hcp : cornerPoint T u v w =
      affineImage T ⟨cornerCoord u, cornerCoord v, cornerCoord w⟩ := by
    rw [cornerPoint, fromHomogeneousPt, Mat4.mulVec, toHomogeneousPt]
    simp only [h30, h31, h32, h33]
    rw [if_neg (by norm_num)]
    simp [affineImage]
  constructor
  · intro hnot
    rw [cornerForce, if_pos (by tauto)]
  · intro hu hv hw
    rw [cornerForce, if_neg (by tauto)]
    exact ⟨by rw [hcp], hcp⟩

/-- Witness for C5 over `ℚ`: a pure-translation control frame by `(1, 2, 3)`,
at the corner `u = v = w = 3` and the non-corner point `u = 1, v = 0, w = 0`. -/
theorem corner_force_spec_witness :
    (Jelly.cornerForce (fun x => x) (10 : ℚ)
      ⟨1, 0, 0, 1, 0, 1, 0, 2, 0, 0, 1, 3, 0, 0, 0, 1⟩ ⟨0, fun _ => 0⟩ 1 0 0 = 0) ∧
    (Jelly.cornerForce (fun x => x) (10 : ℚ)
      ⟨1, 0, 0, 1, 0, 1, 0, 2, 0, 0, 1, 3, 0, 0, 0, 1⟩ ⟨0, fun _ => 0⟩ 3 3 3 =
      Jelly.springForce (fun x => x)
        (Jelly.affineImage ⟨1, 0, 0, 1, 0, 1, 0, 2, 0, 0, 1, 3, 0, 0, 0, 1⟩
          ⟨Jelly.cornerCoord 3, Jelly.cornerCoord 3, Jelly.cornerCoord 3⟩)
        ⟨(0 : ℚ), 0, 0⟩ 0 10) := by
  constructor
  · exact (corner_force_spec (fun x => x) 10 _ _ 1 0 0
      (by norm_num)).1 (by norm_num)
  · have h := (corner_force_spec (fun x => x) (10 : ℚ)
      ⟨1, 0, 0, 1, 0, 1, 0, 2, 0, 0, 1, 3, 0, 0, 0, 1⟩ ⟨0, fun _ => 0⟩ 3 3 3
      (by norm_num)).2 (Or.inr rfl) (Or.inr rfl) (Or.inr rfl)
    exact h.1

/-- `JellyODE::coord_neigh_range(i)` (`jelly.rs` lines 142-150): the in-grid
neighbor offsets along one axis. -/
def coordNeighRange (i : ℤ) : List ℤ :=
  if i = 0 then [0, 1] else if i = 3 then [-1, 0] else [-1, 0, 1]

/-- `JellyODE::inner_force(state, u, v, w)` (`jelly.rs` lines 152-192): the
triple loop over `coord_neigh_range`, skipping the point itself and the
all-three-nonzero offsets, accumulating spring forces with rest length
`2/3 * (if diagonal { SQRT_2 } else { 1 })` where `diagonal` is
`((du + dv + dw) % 2).abs() == 0` (Rust `%` is truncated remainder, `tmod`).
`sq 2` stands for the constant `SQRT_2`. -/
def innerForce (sq : α → α) (k : α) (s : State α) (u0 v0 w0 : ℕ) : Vec3 α :=
  Vec3.lsum ((coordNeighRange (u0 : ℤ)).map fun du =>
    Vec3.lsum ((coordNeighRange (v0 : ℤ)).map fun dv =>
      Vec3.lsum ((coordNeighRange (w0 : ℤ)).map fun dw =>
        if (du = 0 ∧ dv = 0 ∧ dw = 0) ∨ (du ≠ 0 ∧ dv ≠ 0 ∧ dw ≠ 0) then 0
        else
          springForce sq
            ⟨s.y ((((w0 : ℤ) + dw) + ((v0 : ℤ) + dv) * 4 +
                ((u0 : ℤ) + du) * 16).toNat * 3),
             s.y ((((w0 : ℤ) + dw) + ((v0 : ℤ) + dv) * 4 +
                ((u0 : ℤ) + du) * 16).toNat * 3 + 1),
             s.y ((((w0 : ℤ) + dw) + ((v0 : ℤ) + dv) * 4 +
                ((u0 : ℤ) + du) * 16).toNat * 3 + 2)⟩
            ⟨s.y (((w0 : ℤ) + (v0 : ℤ) * 4 + (u0 : ℤ) * 16).toNat * 3),
             s.y (((w0 : ℤ) + (v0 : ℤ) * 4 + (u0 : ℤ) * 16).toNat * 3 + 1),
             s.y (((w0 : ℤ) + (v0 : ℤ) * 4 + (u0 : ℤ) * 16).toNat * 3 + 2)⟩
            (2/3 * (if |((du + dv + dw).tmod 2)| = 0 then sq 2 else 1)) k)))

/-- All 27 offsets `(du, dv, dw) ∈ {-1,0,1}³` in lexicographic order. -/
def allOffsets : List (ℤ × ℤ × ℤ) :=
  [-1, 0, 1].flatMap fun du =>
    [-1, 0, 1].flatMap fun dv =>
      [-1, 0, 1].map fun dw => (du, dv, dw)

/-- Number of nonzero components of an offset. -/
def nzCount (o : ℤ × ℤ × ℤ) : ℕ :=
  (if o.1 = 0 then 0 else 1) + (if o.2.1 = 0 then 0 else 1) +
    (if o.2.2 = 0 then 0 else 1)

/-- The inner force exactly as the claim describes it: the sum, over those
grid neighbors at offsets with one nonzero component (face-adjacent, rest
length `2/3`) or two nonzero components (edge-diagonal, rest length
`2/3·√2`) that lie inside the 4×4×4 grid, of the Hookean spring force pulling
the point toward that neighbor; all other offsets contribute nothing. -/
def innerForceSpec (sq : α → α) (k : α) (s : State α) (u0 v0 w0 : ℕ) :
    Vec3 α :=
  Vec3.lsum (allOffsets.map fun o =>
    if (0 ≤ (u0 : ℤ) + o.1 ∧ (u0 : ℤ) + o.1 ≤ 3) ∧
       (0 ≤ (v0 : ℤ) + o.2.1 ∧ (v0 : ℤ) + o.2.1 ≤ 3) ∧
       (0 ≤ (w0 : ℤ) + o.2.2 ∧ (w0 : ℤ) + o.2.2 ≤ 3) ∧
       (nzCount o = 1 ∨ nzCount o = 2) then
      springForce sq
        ⟨s.y ((((w0 : ℤ) + o.2.2) + ((v0 : ℤ) + o.2.1) * 4 +
            ((u0 : ℤ) + o.1) * 16).toNat * 3),
         s.y ((((w0 : ℤ) + o.2.2) + ((v0 : ℤ) + o.2.1) * 4 +
            ((u0 : ℤ) + o.1) * 16).toNat * 3 + 1),
         s.y ((((w0 : ℤ) + o.2.2) + ((v0 : ℤ) + o.2.1) * 4 +
            ((u0 : ℤ) + o.1) * 16).toNat * 3 + 2)⟩
        ⟨s.y (((w0 : ℤ) + (v0 : ℤ) * 4 + (u0 : ℤ) * 16).toNat * 3),
         s.y (((w0 : ℤ) + (v0 : ℤ) * 4 + (u0 : ℤ) * 16).toNat * 3 + 1),
         s.y (((w0 : ℤ) + (v0 : ℤ) * 4 + (u0 : ℤ) * 16).toNat * 3 + 2)⟩
        (if nzCount o = 2 then 2/3 * sq 2 else 2/3) k
    else 0)

theorem tmod_neg_two_two : Int.tmod (-2) 2 = 0 := by decide

theorem tmod_neg_one_two : Int.tmod (-1) 2 ≠ 0 := by decide

theorem tmod_zero_two : Int.tmod 0 2 = 0 := by decide

theorem tmod_one_two : Int.tmod 1 2 ≠ 0 := by decide

theorem tmod_two_two : Int.tmod 2 2 = 0 := by decide

set_option maxHeartbeats 4000000 in
/-- C4: for every lattice point `(u, v, w)` with `u, v, w ∈ [0, 3]`, the inner
force computed by the `coord_neigh_range` triple loop equals the sum, over
exactly those grid neighbors at offsets with one nonzero component (rest
length `2/3`) or two nonzero components (rest length `2/3·√2`) that lie inside
the 4×4×4 grid, of the Hookean spring force pulling the point toward that
neighbor with constant `inner_spring_constant`; the point itself and the
all-three-nonzero offsets contribute nothing. -/
theorem inner_force_spec (sq : α → α) (k : α) (s : State α) (u v w : ℕ)
    (hu : u ≤ 3) (hv : v ≤ 3) (hw : w ≤ 3) :
    innerForce sq k s u v w = innerForceSpec sq k s u v w := by
  interval_cases u <;> interval_cases v <;> interval_cases w <;>
    · simp [innerForce, innerForceSpec, coordNeighRange, allOffsets, nzCount,
        List.flatMap, tmod_neg_two_two, tmod_neg_one_two, tmod_zero_two,
        tmod_one_two, tmod_two_two]
      refine ⟨?_, ?_, ?_⟩ <;> ring

/-- Witness for C4 over `ℚ`, at the boundary point `(0, 0, 0)` and the
interior point `(1, 2, 3)` of a concrete state. -/
theorem inner_force_spec_witness :
    innerForce (fun x => x) (3 : ℚ) ⟨0, fun j => (j : ℚ)⟩ 0 0 0 =
      innerForceSpec (fun x => x) (3 : ℚ) ⟨0, fun j => (j : ℚ)⟩ 0 0 0 ∧
    innerForce (fun x => x) (3 : ℚ) ⟨0, fun j => (j : ℚ)⟩ 1 2 3 =
      innerForceSpec (fun x => x) (3 : ℚ) ⟨0, fun j => (j : ℚ)⟩ 1 2 3 :=
  ⟨inner_force_spec (fun x => x) 3 ⟨0, fun j => (j : ℚ)⟩ 0 0 0
      (by norm_num) (by norm_num) (by norm_num),
   inner_force_spec (fun x => x) 3 ⟨0, fun j => (j : ℚ)⟩ 1 2 3
      (by norm_num) (by norm_num) (by norm_num)⟩

end Jelly

/-! ## Inertia (`src/physics/inertia.rs`) and the spinning top
(`src/simulators/spinning_top.rs`) -/

/-- A 3×3 matrix (`nalgebra::Matrix3<f64>`), row-major fields `mRC`. -/
@[ext]
structure Mat3 (α : Type) where
  m00 : α
  m01 : α
  m02 : α
  m10 : α
  m11 : α
  m12 : α
  m20 : α
  m21 : α
  m22 : α
  deriving DecidableEq

namespace Mat3

/-- Matrix product. -/
def mul (a b : Mat3 α) : Mat3 α :=
  ⟨a.m00 * b.m00 + a.m01 * b.m10 + a.m02 * b.m20,
   a.m00 * b.m01 + a.m01 * b.m11 + a.m02 * b.m21,
   a.m00 * b.m02 + a.m01 * b.m12 + a.m02 * b.m22,
   a.m10 * b.m00 + a.m11 * b.m10 + a.m12 * b.m20,
   a.m10 * b.m01 + a.m11 * b.m11 + a.m12 * b.m21,
   a.m10 * b.m02 + a.m11 * b.m12 + a.m12 * b.m22,
   a.m20 * b.m00 + a.m21 * b.m10 + a.m22 * b.m20,
   a.m20 * b.m01 + a.m21 * b.m11 + a.m22 * b.m21,
   a.m20 * b.m02 + a.m21 * b.m12 + a.m22 * b.m22⟩

/-- The identity matrix (`Matrix3::identity()`). -/
def one : Mat3 α := ⟨1, 0, 0, 0, 1, 0, 0, 0, 1⟩

/-- Scalar multiple of a matrix. -/
def smul (c : α) (m : Mat3 α) : Mat3 α :=
  ⟨c * m.m00, c * m.m01, c * m.m02, c * m.m10, c * m.m11, c * m.m12,
   c * m.m20, c * m.m21, c * m.m22⟩

/-- Matrix–vector product. -/
def mulVec (m : Mat3 α) (v : Vec3 α) : Vec3 α :=
  ⟨m.m00 * v.x + m.m01 * v.y + m.m02 * v.z,
   m.m10 * v.x + m.m11 * v.y + m.m12 * v.z,
   m.m20 * v.x + m.m21 * v.y + m.m22 * v.z⟩

/-- Determinant by cofactor expansion along the first row. -/
def det (m : Mat3 α) : α :=
  m.m00 * (m.m11 * m.m22 - m.m12 * m.m21) -
    m.m01 * (m.m10 * m.m22 - m.m12 * m.m20) +
    m.m02 * (m.m10 * m.m21 - m.m11 * m.m20)

/-- The adjugate (transposed cofactor matrix). -/
def adjOf (m : Mat3 α) : Mat3 α :=
  ⟨m.m11 * m.m22 - m.m12 * m.m21,
   -(m.m01 * m.m22 - m.m02 * m.m21),
   m.m01 * m.m12 - m.m02 * m.m11,
   -(m.m10 * m.m22 - m.m12 * m.m20),
   m.m00 * m.m22 - m.m02 * m.m20,
   -(m.m00 * m.m12 - m.m02 * m.m10),
   m.m10 * m.m21 - m.m11 * m.m20,
   -(m.m00 * m.m21 - m.m01 * m.m20),
   m.m00 * m.m11 - m.m01 * m.m10⟩

/-- `Matrix3::try_inverse`: `None` when the determinant is zero, otherwise
the adjugate (cofactor matrix) divided by the determinant. -/
def tryInverse (m : Mat3 α) : Option (Mat3 α) :=
  if det m = 0 then none else some (smul (det m)⁻¹ (adjOf m))

theorem det_mul (a b : Mat3 α) : det (mul a b) = det a * det b := by
  simp only [det, mul]; ring

@[simp] theorem det_one : det (one : Mat3 α) = 1 := by
  simp only [det, one]; ring

theorem mul_adjOf (m : Mat3 α) : mul m (adjOf m) = smul (det m) one := by
  ext <;> simp only [mul, adjOf, smul, one, det] <;> ring

theorem adjOf_mul (m : Mat3 α) : mul (adjOf m) m = smul (det m) one := by
  ext <;> simp only [mul, adjOf, smul, one, det] <;> ring

theorem mul_smul_right (c : α) (a b : Mat3 α) :
    mul a (smul c b) = smul c (mul a b) := by
  ext <;> simp only [mul, smul] <;> ring

theorem mul_smul_left (c : α) (a b : Mat3 α) :
    mul (smul c a) b = smul c (mul a b) := by
  ext <;> simp only [mul, smul] <;> ring

theorem smul_smul' (c d : α) (a : Mat3 α) :
    smul c (smul d a) = smul (c * d) a := by
  ext <;> simp only [smul] <;> ring

@[simp] theorem smul_one_left (a : Mat3 α) : smul 1 a = a := by
  ext <;> simp [smul]

end Mat3

/-- If `try_inverse` succeeds, the result is a two-sided inverse. -/
theorem tryInverse_correct {m n : Mat3 α} (h : Mat3.tryInverse m = some n) :
    Mat3.mul m n = Mat3.one ∧ Mat3.mul n m = Mat3.one := by
  rw [Mat3.tryInverse] at h
  split_ifs at h with hdet
  injection h with h
  subst h
  constructor
  · rw [Mat3.mul_smul_right, Mat3.mul_adjOf, Mat3.smul_smul',
      inv_mul_cancel₀ hdet, Mat3.smul_one_left]
  · rw [Mat3.mul_smul_left, Mat3.adjOf_mul, Mat3.smul_smul',
      inv_mul_cancel₀ hdet, Mat3.smul_one_left]

/-- If `try_inverse` succeeds, the determinant is nonzero. -/
theorem tryInverse_some_det {m n : Mat3 α} (h : Mat3.tryInverse m = some n) :
    Mat3.det m ≠ 0 := by
  rw [Mat3.tryInverse] at h
  split_ifs at h with hdet
  exact hdet

/-- `Inertia` (`src/physics/inertia.rs`): a tensor and its precomputed
inverse. -/
structure Inertia (α : Type) where
  matrix : Mat3 α
  inverse : Mat3 α
  deriving DecidableEq

/-- `Inertia::new(matrix)` (`inertia.rs` lines 9-16): computes the inverse
with `try_inverse().expect(..)`; the panic on a singular tensor is modelled as
`none`. -/
def Inertia.new (m : Mat3 α) : Option (Inertia α) :=
  (Mat3.tryInverse m).map fun inv => ⟨m, inv⟩

/-- Shared helper: a successful `Inertia::new` stores the matrix and a
two-sided inverse. -/
theorem inertiaNew_fields {m : Mat3 α} {i : Inertia α}
    (h : Inertia.new m = some i) :
    i.matrix = m ∧ Mat3.mul m i.inverse = Mat3.one ∧
      Mat3.mul i.inverse m = Mat3.one := by
  rw [Inertia.new] at h
  cases htry : Mat3.tryInverse m with
  | none => rw [htry] at h; exact absurd h (by simp)
  | some n =>
    rw [htry] at h
    simp only [Option.map_some', Option.some.injEq] at h
    obtain ⟨h1, h2⟩ := tryInverse_correct htry
    subst h
    exact ⟨rfl, h1, h2⟩

/-- C9: `Inertia::new` succeeds exactly on invertible matrices, in which case
it stores the matrix together with a two-sided inverse; on a non-invertible
(zero-determinant) matrix the construction panics (modelled as `none`) instead
of returning a degenerate `Inertia`. -/
theorem inertia_new_spec (m : Mat3 α) :
    ((∃ n, Mat3.mul m n = Mat3.one ∧ Mat3.mul n m = Mat3.one) ↔
      (Inertia.new m).isSome) ∧
    (∀ i, Inertia.new m = some i →
      i.matrix = m ∧ Mat3.mul m i.inverse = Mat3.one ∧
        Mat3.mul i.inverse m = Mat3.one) ∧
    (Mat3.det m = 0 → Inertia.new m = none) := by
  have hnone : Mat3.det m = 0 → Inertia.new m = none := by
    intro h0
    rw [Inertia.new, Mat3.tryInverse, if_pos h0, Option.map_none']
  refine ⟨⟨?_, ?_⟩, fun i hi => inertiaNew_fields hi, hnone⟩
  · rintro ⟨n, h1, h2⟩
    have hdet : Mat3.det m ≠ 0 := by
      intro h0
      have := Mat3.det_mul m n
      rw [h1, Mat3.det_one, h0, zero_mul] at this
      exact one_ne_zero this
    rw [Inertia.new, Mat3.tryInverse, if_neg hdet]
    simp
  · intro hsome
    cases hi : Inertia.new m with
    | none => rw [hi] at hsome; exact absurd hsome (by simp)
    | some i =>
      obtain ⟨-, h1, h2⟩ := inertiaNew_fields hi
      exact ⟨i.inverse, h1, h2⟩

/-- Witness for C9 over `ℚ`: the identity matrix is invertible and stored with
its own inverse; the zero-determinant matrix `0` makes construction fail. -/
theorem inertia_new_one :
    Inertia.new (Mat3.one : Mat3 ℚ) = some ⟨Mat3.one, Mat3.one⟩ := by
  norm_num [Inertia.new, Mat3.tryInverse, Mat3.det, Mat3.one, Mat3.smul,
    Mat3.adjOf]

theorem inertia_new_spec_witness :
    Inertia.new (Mat3.one : Mat3 ℚ) = some ⟨Mat3.one, Mat3.one⟩ ∧
    Mat3.mul (Mat3.one : Mat3 ℚ) Mat3.one = Mat3.one ∧
    Inertia.new (Mat3.smul (0 : ℚ) Mat3.one) = none := by
  refine ⟨inertia_new_one, ?_, ?_⟩
  · exact ((inertia_new_spec (Mat3.one : Mat3 ℚ)).2.1 ⟨Mat3.one, Mat3.one⟩
      inertia_new_one).2.1
  · exact (inertia_new_spec (Mat3.smul (0 : ℚ) Mat3.one)).2.2
      (by norm_num [Mat3.det, Mat3.smul, Mat3.one])

/-- The fixed shape-factor matrix of the cube inertia tensor
(`SpinningTopODE::calc_inertia`, `spinning_top.rs` lines 30-40). -/
def cubeShapeMatrix : Mat3 α :=
  ⟨2/3, -(1/4), -(1/4), -(1/4), 2/3, -(1/4), -(1/4), -(1/4), 2/3⟩

/-- `density * side_length.powi(5) * matrix![..]` from `calc_inertia`. -/
def inertiaMatrixOf (density sideLength : α) : Mat3 α :=
  Mat3.smul (density * sideLength ^ 5) cubeShapeMatrix

/-- `SpinningTopODE` (`spinning_top.rs` lines 7-13). -/
structure SpinningTop (α : Type) where
  inertia : Inertia α
  sideLength : α
  density : α
  gravity : Vec3 α
  enableGravity : Bool
  deriving DecidableEq

/-- `SpinningTopODE::new(density, side_length)` (`spinning_top.rs` lines
16-28): construct and immediately `calc_inertia` (a panic there is `none`). -/
def SpinningTop.new (density sideLength : α) : Option (SpinningTop α) :=
  (Inertia.new (inertiaMatrixOf density sideLength)).map fun i =>
    ⟨i, sideLength, density, ⟨0, -100, 0⟩, true⟩

/-- `SpinningTopODE::set_side_length` (`spinning_top.rs` lines 64-67). -/
def SpinningTop.setSideLength (t : SpinningTop α) (s : α) :
    Option (SpinningTop α) :=
  (Inertia.new (inertiaMatrixOf t.density s)).map fun i =>
    { t with sideLength := s, inertia := i }

/-- `SpinningTopODE::set_density` (`spinning_top.rs` lines 73-76). -/
def SpinningTop.setDensity (t : SpinningTop α) (d : α) :
    Option (SpinningTop α) :=
  (Inertia.new (inertiaMatrixOf d t.sideLength)).map fun i =>
    { t with density := d, inertia := i }

/-- A UI-driven configuration call on the spinning top. -/
inductive TopOp (α : Type) where
  | setDensity (d : α)
  | setSideLength (s : α)

/-- Apply one configuration call. -/
def applyTopOp (t : SpinningTop α) : TopOp α → Option (SpinningTop α)
  | .setDensity d => t.setDensity d
  | .setSideLength s => t.setSideLength s

/-- Construct a top and run a sequence of configuration calls. -/
def runTopOps (density sideLength : α) (ops : List (TopOp α)) :
    Option (SpinningTop α) :=
  (SpinningTop.new density sideLength).bind fun t => ops.foldlM applyTopOp t

/-- The C6 invariant on a spinning top. -/
def TopInv (t : SpinningTop α) : Prop :=
  t.inertia.matrix = inertiaMatrixOf t.density t.sideLength ∧
  Mat3.mul t.inertia.matrix t.inertia.inverse = Mat3.one ∧
  Mat3.mul t.inertia.inverse t.inertia.matrix = Mat3.one

/-- A freshly recomputed `Inertia` from `inertiaMatrixOf d s` satisfies the
invariant once stored, whatever the other fields are. -/
theorem topInv_of_new {d s : α} {i : Inertia α}
    (hi : Inertia.new (inertiaMatrixOf d s) = some i)
    {g : Vec3 α} {b : Bool} : TopInv ⟨i, s, d, g, b⟩ := by
  obtain ⟨h1, h2, h3⟩ := inertiaNew_fields hi
  refine ⟨h1, ?_, ?_⟩
  · show Mat3.mul i.matrix i.inverse = Mat3.one
    rw [h1]; exact h2
  · show Mat3.mul i.inverse i.matrix = Mat3.one
    rw [h1]; exact h3

theorem new_topInv {d s : α} {t : SpinningTop α}
    (h : SpinningTop.new d s = some t) : TopInv t := by
  rw [SpinningTop.new] at h
  cases hi : Inertia.new (inertiaMatrixOf d s) with
  | none => rw [hi] at h; exact absurd h (by simp)
  | some i =>
    rw [hi] at h
    simp only [Option.map_some', Option.some.injEq] at h
    subst h
    exact topInv_of_new hi

theorem applyTopOp_topInv {t t' : SpinningTop α} {op : TopOp α}
    (h : applyTopOp t op = some t') : TopInv t' := by
  cases op with
  | setDensity d =>
    rw [applyTopOp, SpinningTop.setDensity] at h
    cases hi : Inertia.new (inertiaMatrixOf d t.sideLength) with
    | none => rw [hi] at h; exact absurd h (by simp)
    | some i =>
      rw [hi] at h
      simp only [Option.map_some', Option.some.injEq] at h
      subst h
      exact topInv_of_new hi
  | setSideLength s =>
    rw [applyTopOp, SpinningTop.setSideLength] at h
    cases hi : Inertia.new (inertiaMatrixOf t.density s) with
    | none => rw [hi] at h; exact absurd h (by simp)
    | some i =>
      rw [hi] at h
      simp only [Option.map_some', Option.some.injEq] at h
      subst h
      exact topInv_of_new hi

theorem foldlM_topInv :
    ∀ (ops : List (TopOp α)) (t t' : SpinningTop α), TopInv t →
      List.foldlM applyTopOp t ops = some t' → TopInv t' := by
  intro ops
  induction ops with
  | nil =>
    intro t t' hinv h
    simp only [List.foldlM_nil] at h
    cases h
    exact hinv
  | cons op ops ih =>
    intro t t' hinv h
    simp only [List.foldlM_cons] at h
    cases happ : applyTopOp t op with
    | none => rw [happ] at h; exact absurd h (by simp)
    | some t1 =>
      rw [happ] at h
      exact ih t1 t' (applyTopOp_topInv happ) h

/-- C6: after `new(density, side_length)` and any sequence of `set_density`
and `set_side_length` calls that did not panic, the stored inertia tensor is
`density · side_length⁵ · [[2/3,-1/4,-1/4],[-1/4,2/3,-1/4],[-1/4,-1/4,2/3]]`
for the current density and side length, and the stored inverse is a
two-sided matrix inverse of it. -/
theorem spinning_top_inertia_invariant (density sideLength : α)
    (ops : List (TopOp α)) (t : SpinningTop α)
    (h : runTopOps density sideLength ops = some t) :
    t.inertia.matrix =
      Mat3.smul (t.density * t.sideLength ^ 5) cubeShapeMatrix ∧
    Mat3.mul t.inertia.matrix t.inertia.inverse = Mat3.one ∧
    Mat3.mul t.inertia.inverse t.inertia.matrix = Mat3.one := by
  rw [runTopOps] at h
  cases hnew : SpinningTop.new density sideLength with
  | none => rw [hnew] at h; exact absurd h (by simp)
  | some t0 =>
    rw [hnew] at h
    simp only [Option.some_bind] at h
    have := foldlM_topInv ops t0 t (new_topInv hnew) h
    exact ⟨this.1, this.2.1, this.2.2⟩

/-- The concrete spinning top reached from `new(1, 1)` followed by
`set_density(2)` over `ℚ`, with the inverse tensor written out. -/
def topAfterOps : SpinningTop ℚ :=
  ⟨⟨⟨4/3, -(1/2), -(1/2), -(1/2), 4/3, -(1/2), -(1/2), -(1/2), 4/3⟩,
    ⟨15/11, 9/11, 9/11, 9/11, 15/11, 9/11, 9/11, 9/11, 15/11⟩⟩,
   1, 2, ⟨0, -100, 0⟩, true⟩

theorem runTopOps_concrete :
    runTopOps (1 : ℚ) 1 [TopOp.setDensity 2] = some topAfterOps := by
  have h1 : SpinningTop.new (1 : ℚ) 1 =
      some ⟨⟨⟨2/3, -(1/4), -(1/4), -(1/4), 2/3, -(1/4), -(1/4), -(1/4), 2/3⟩,
        ⟨30/11, 18/11, 18/11, 18/11, 30/11, 18/11, 18/11, 18/11, 30/11⟩⟩,
       1, 1, ⟨0, -100, 0⟩, true⟩ := by
    norm_num [SpinningTop.new, Inertia.new, Mat3.tryInverse, Mat3.det,
      inertiaMatrixOf, cubeShapeMatrix, Mat3.smul, Mat3.adjOf]
  have h2 : SpinningTop.setDensity
      (⟨⟨⟨2/3, -(1/4), -(1/4), -(1/4), 2/3, -(1/4), -(1/4), -(1/4), 2/3⟩,
        ⟨30/11, 18/11, 18/11, 18/11, 30/11, 18/11, 18/11, 18/11, 30/11⟩⟩,
       1, 1, ⟨0, -100, 0⟩, true⟩ : SpinningTop ℚ) 2 = some topAfterOps := by
    norm_num [SpinningTop.setDensity, Inertia.new, Mat3.tryInverse, Mat3.det,
      inertiaMatrixOf, cubeShapeMatrix, Mat3.smul, Mat3.adjOf, topAfterOps]
  rw [runTopOps, h1, Option.some_bind]
  simp only [List.foldlM_cons, List.foldlM_nil, applyTopOp, h2,
    Option.some_bind]
  rfl

/-- Witness for C6 over `ℚ`: `new(1, 1)` followed by `set_density(2)`. -/
theorem spinning_top_inertia_invariant_witness :
    runTopOps (1 : ℚ) 1 [TopOp.setDensity 2] = some topAfterOps ∧
    (topAfterOps.inertia.matrix =
      Mat3.smul (topAfterOps.density * topAfterOps.sideLength ^ 5)
        cubeShapeMatrix ∧
    Mat3.mul topAfterOps.inertia.matrix topAfterOps.inertia.inverse =
      Mat3.one ∧
    Mat3.mul topAfterOps.inertia.inverse topAfterOps.inertia.matrix =
      Mat3.one) :=
  ⟨runTopOps_concrete, spinning_top_inertia_invariant 1 1 [TopOp.setDensity 2]
    topAfterOps runTopOps_concrete⟩

/-! ## Quaternions (`nalgebra::Quaternion` in `spinning_top.rs`, and
`Quaternion(Vector4)` in `src/numerics/rotations.rs`; both use the Hamilton
product with components `(w, x, y, z)`). -/

@[ext]
structure Quat (α : Type) where
  w : α
  x : α
  y : α
  z : α
  deriving DecidableEq

namespace Quat

/-- Hamilton product (`impl Mul for Quaternion`, `rotations.rs` lines 84-105;
identical to nalgebra's quaternion product). -/
def mul (a b : Quat α) : Quat α :=
  ⟨a.w * b.w - a.x * b.x - a.y * b.y - a.z * b.z,
   a.w * b.x + a.x * b.w + a.y * b.z - a.z * b.y,
   a.w * b.y - a.x * b.z + a.y * b.w + a.z * b.x,
   a.w * b.z + a.x * b.y - a.y * b.x + a.z * b.w⟩

/-- Conjugate. -/
def conj (a : Quat α) : Quat α := ⟨a.w, -a.x, -a.y, -a.z⟩

/-- Scalar multiple. -/
def smulQ (c : α) (a : Quat α) : Quat α := ⟨c * a.w, c * a.x, c * a.y, c * a.z⟩

/-- Squared norm. -/
def normSq (a : Quat α) : α := a.w * a.w + a.x * a.x + a.y * a.y + a.z * a.z

/-- Normalisation: divide each component by the norm `sq (normSq a)`
(`Unit::new_normalize` / `Vector4::normalize`). -/
def normalizeQ (sq : α → α) (a : Quat α) : Quat α :=
  ⟨a.w / sq (normSq a), a.x / sq (normSq a), a.y / sq (normSq a),
   a.z / sq (normSq a)⟩

/-- The pure-vector quaternion `(0, v)`. -/
def pureVec (v : Vec3 α) : Quat α := ⟨0, v.x, v.y, v.z⟩

/-- Vector part. -/
def imag (a : Quat α) : Vec3 α := ⟨a.x, a.y, a.z⟩

end Quat

/-- `UnitQuaternion::transform_vector`: conjugation `q ⊗ (0, v) ⊗ q*` (equal
to the rotation action for unit `q`; `UnitQuaternion::inverse` is the
conjugate). -/
def rotVec (q : Quat α) (v : Vec3 α) : Vec3 α :=
  Quat.imag (Quat.mul (Quat.mul q (Quat.pureVec v)) (Quat.conj q))

/-- `SpinningTopODE::mass` (`spinning_top.rs` lines 56-58). -/
def SpinningTop.mass (t : SpinningTop α) : α := t.density * t.sideLength ^ 3

/-- `SpinningTopODE::gravity()` (`spinning_top.rs` lines 78-84): zero when
gravity is disabled. -/
def SpinningTop.gravityEff (t : SpinningTop α) : Vec3 α :=
  if t.enableGravity then t.gravity else ⟨0, 0, 0⟩

/-- `SpinningTopODE::weight` (`spinning_top.rs` lines 52-54). -/
def SpinningTop.weight (t : SpinningTop α) : Vec3 α :=
  Vec3.smul t.mass t.gravityEff

/-- `SpinningTopODE::torque` (`spinning_top.rs` lines 42-50). -/
def SpinningTop.torque (t : SpinningTop α) (rot : Quat α) : Vec3 α :=
  rotVec (Quat.conj rot)
    (Vec3.cross (rotVec rot (Vec3.smul ((1/2) * t.sideLength) ⟨1, 1, 1⟩))
      t.weight)

/-- `SpinningTopODE::derivative` (`spinning_top.rs` lines 87-116).  The state
is `(ω, q)` in slots `0..7`; note the source renormalizes the orientation
quaternion (`UnitQuaternion::new_normalize`) before using it.  Outputs beyond
index 6 are padding zeros. -/
def SpinningTop.derivative (sq : α → α) (t : SpinningTop α) (s : State α) :
    ℕ → α :=
  let av : Vec3 α := ⟨s.y 0, s.y 1, s.y 2⟩
  let rot := Quat.normalizeQ sq ⟨s.y 3, s.y 4, s.y 5, s.y 6⟩
  let avd := Mat3.mulVec t.inertia.inverse
    (Vec3.add (t.torque rot)
      (Vec3.cross (Mat3.mulVec t.inertia.matrix av) av))
  let rd := Quat.smulQ (1/2) (Quat.mul rot (Quat.pureVec av))
  fun j =>
    if j = 0 then avd.x else if j = 1 then avd.y else if j = 2 then avd.z
    else if j = 3 then rd.w else if j = 4 then rd.x else if j = 5 then rd.y
    else if j = 6 then rd.z else 0

/-- C2 (amended): the last four entries of `SpinningTopODE::derivative` are
the components of `0.5 · normalize(q) ⊗ (0, ω)` — the state quaternion is
renormalized inside `derivative` before the kinematic product — and when the
computed norm of `q` is `1` (in particular for unit `q`), they equal the
claimed `0.5 · q ⊗ (0, ω)`. -/
theorem spinning_top_quat_kinematics (sq : α → α) (t : SpinningTop α)
    (s : State α) :
    (SpinningTop.derivative sq t s 3 =
        (Quat.smulQ (1/2) (Quat.mul
          (Quat.normalizeQ sq ⟨s.y 3, s.y 4, s.y 5, s.y 6⟩)
          (Quat.pureVec ⟨s.y 0, s.y 1, s.y 2⟩))).w ∧
      SpinningTop.derivative sq t s 4 =
        (Quat.smulQ (1/2) (Quat.mul
          (Quat.normalizeQ sq ⟨s.y 3, s.y 4, s.y 5, s.y 6⟩)
          (Quat.pureVec ⟨s.y 0, s.y 1, s.y 2⟩))).x ∧
      SpinningTop.derivative sq t s 5 =
        (Quat.smulQ (1/2) (Quat.mul
          (Quat.normalizeQ sq ⟨s.y 3, s.y 4, s.y 5, s.y 6⟩)
          (Quat.pureVec ⟨s.y 0, s.y 1, s.y 2⟩))).y ∧
      SpinningTop.derivative sq t s 6 =
        (Quat.smulQ (1/2) (Quat.mul
          (Quat.normalizeQ sq ⟨s.y 3, s.y 4, s.y 5, s.y 6⟩)
          (Quat.pureVec ⟨s.y 0, s.y 1, s.y 2⟩))).z) ∧
    (sq (Quat.normSq ⟨s.y 3, s.y 4, s.y 5, s.y 6⟩) = 1 →
      SpinningTop.derivative sq t s 3 =
        (Quat.smulQ (1/2) (Quat.mul (⟨s.y 3, s.y 4, s.y 5, s.y 6⟩ : Quat α)
          (Quat.pureVec ⟨s.y 0, s.y 1, s.y 2⟩))).w ∧
      SpinningTop.derivative sq t s 4 =
        (Quat.smulQ (1/2) (Quat.mul (⟨s.y 3, s.y 4, s.y 5, s.y 6⟩ : Quat α)
          (Quat.pureVec ⟨s.y 0, s.y 1, s.y 2⟩))).x ∧
      SpinningTop.derivative sq t s 5 =
        (Quat.smulQ (1/2) (Quat.mul (⟨s.y 3, s.y 4, s.y 5, s.y 6⟩ : Quat α)
          (Quat.pureVec ⟨s.y 0, s.y 1, s.y 2⟩))).y ∧
      SpinningTop.derivative sq t s 6 =
        (Quat.smulQ (1/2) (Quat.mul (⟨s.y 3, s.y 4, s.y 5, s.y 6⟩ : Quat α)
          (Quat.pureVec ⟨s.y 0, s.y 1, s.y 2⟩))).z) := by
  have hgen :
      SpinningTop.derivative sq t s 3 =
        (Quat.smulQ (1/2) (Quat.mul
          (Quat.normalizeQ sq ⟨s.y 3, s.y 4, s.y 5, s.y 6⟩)
          (Quat.pureVec ⟨s.y 0, s.y 1, s.y 2⟩))).w ∧
      SpinningTop.derivative sq t s 4 =
        (Quat.smulQ (1/2) (Quat.mul
          (Quat.normalizeQ sq ⟨s.y 3, s.y 4, s.y 5, s.y 6⟩)
          (Quat.pureVec ⟨s.y 0, s.y 1, s.y 2⟩))).x ∧
      SpinningTop.derivative sq t s 5 =
        (Quat.smulQ (1/2) (Quat.mul
          (Quat.normalizeQ sq ⟨s.y 3, s.y 4, s.y 5, s.y 6⟩)
          (Quat.pureVec ⟨s.y 0, s.y 1, s.y 2⟩))).y ∧
      SpinningTop.derivative sq t s 6 =
        (Quat.smulQ (1/2) (Quat.mul
          (Quat.normalizeQ sq ⟨s.y 3, s.y 4, s.y 5, s.y 6⟩)
          (Quat.pureVec ⟨s.y 0, s.y 1, s.y 2⟩))).z :=
    ⟨rfl, rfl, rfl, rfl⟩
  refine ⟨hgen, fun hunit => ?_⟩
  have hq : Quat.normalizeQ sq (⟨s.y 3, s.y 4, s.y 5, s.y 6⟩ : Quat α) =
      ⟨s.y 3, s.y 4, s.y 5, s.y 6⟩ := by
    simp [Quat.normalizeQ, hunit]
  exact ⟨by rw [hgen.1, hq], by rw [hgen.2.1, hq], by rw [hgen.2.2.1, hq],
    by rw [hgen.2.2.2, hq]⟩

/-- Witness for C2 over `ℚ` with a unit quaternion `(1, 0, 0, 0)` and
`ω = (2, 0, 0)` (the dummy `sq` maps `1` to `1`, matching any square root on
this input). -/
theorem spinning_top_quat_kinematics_witness :
    SpinningTop.derivative (fun x => x)
      (⟨⟨Mat3.one, Mat3.one⟩, 1, 1, ⟨0, -100, 0⟩, true⟩ : SpinningTop ℚ)
      ⟨0, fun j => if j = 0 then 2 else if j = 3 then 1 else 0⟩ 4 =
      (Quat.smulQ (1/2) (Quat.mul (⟨1, 0, 0, 0⟩ : Quat ℚ)
        (Quat.pureVec ⟨2, 0, 0⟩))).x := by
  have h := (spinning_top_quat_kinematics (fun x => x)
    (⟨⟨Mat3.one, Mat3.one⟩, 1, 1, ⟨0, -100, 0⟩, true⟩ : SpinningTop ℚ)
    ⟨0, fun j => if j = 0 then 2 else if j = 3 then 1 else 0⟩).2
    (by norm_num [Quat.normSq])
  have h4 := h.2.1
  norm_num [Quat.smulQ, Quat.mul, Quat.pureVec] at h4 ⊢
  exact h4

/-- C2 (counterexample to the claim as stated): with the non-unit state
quaternion `q = (2, 0, 0, 0)` and `ω = (1, 0, 0)`, entry 4 of the derivative
is `1/2` (the source normalizes `q` first), while the claimed
`0.5 · q ⊗ (0, ω)` has x-component `1`. -/
theorem spinning_top_quat_kinematics_counterexample :
    SpinningTop.derivative Real.sqrt
      (⟨⟨Mat3.one, Mat3.one⟩, 1, 1, ⟨0, -100, 0⟩, true⟩ : SpinningTop ℝ)
      ⟨0, fun j => if j = 3 then 2 else if j = 0 then 1 else 0⟩ 4 = 1/2 ∧
    (Quat.smulQ (1/2) (Quat.mul (⟨2, 0, 0, 0⟩ : Quat ℝ)
      (Quat.pureVec ⟨1, 0, 0⟩))).x = 1 ∧
    (1/2 : ℝ) ≠ 1 := by
  have hsqrt : Real.sqrt 4 = 2 := by
    rw [show (4 : ℝ) = 2 ^ 2 by norm_num, Real.sqrt_sq (by norm_num : (0:ℝ) ≤ 2)]
  refine ⟨?_, ?_, by norm_num⟩
  · show (Quat.smulQ (1/2) (Quat.mul
      (Quat.normalizeQ Real.sqrt ⟨(2:ℝ), 0, 0, 0⟩) (Quat.pureVec ⟨1, 0, 0⟩))).x = 1/2
    norm_num [Quat.normalizeQ, Quat.normSq, Quat.smulQ, Quat.mul,
      Quat.pureVec, hsqrt]
  · norm_num [Quat.smulQ, Quat.mul, Quat.pureVec]

/-! ## Quaternion interpolation (`src/numerics/rotations.rs`) -/

namespace Quat

/-- Componentwise addition of quaternions (as `Vector4` addition). -/
def addQ (a b : Quat α) : Quat α :=
  ⟨a.w + b.w, a.x + b.x, a.y + b.y, a.z + b.z⟩

/-- Componentwise negation (`impl Neg`, `rotations.rs` lines 107-113). -/
def negQ (a : Quat α) : Quat α := ⟨-a.w, -a.x, -a.y, -a.z⟩

/-- Componentwise division by a scalar (`Vector4` / scalar). -/
def sdivQ (a : Quat α) (c : α) : Quat α :=
  ⟨a.w / c, a.x / c, a.y / c, a.z / c⟩

/-- Four-dimensional dot product (`Vector4::dot`). -/
def dotQ (a b : Quat α) : α :=
  a.w * b.w + a.x * b.x + a.y * b.y + a.z * b.z

/-- `Quaternion::is_zero` (`rotations.rs` lines 27-29): all components zero. -/
def isZero (a : Quat α) : Prop :=
  a.w = 0 ∧ a.x = 0 ∧ a.y = 0 ∧ a.z = 0

instance (a : Quat α) : Decidable (isZero a) := by
  unfold isZero; infer_instance

/-- The norm `sq (normSq a)` (`Vector4::norm`). -/
def qnorm (sq : α → α) (a : Quat α) : α := sq (normSq a)

end Quat

/-- `f64::EPSILON`, exactly `2⁻⁵²`. -/
def machineEps : α := 1 / 2 ^ 52

/-- The nudged interpolation parameter from `Quaternion::lerp`
(`rotations.rs` line 38): `t + (if t == 1.0 { -1.0 } else { 1.0 }) * 10 * ε`. -/
def nudge (ε t : α) : α := t + (if t = 1 then -1 else 1) * 10 * ε

/-- `Quaternion::lerp` (`rotations.rs` lines 31-44), with explicit recursion
fuel.  Over exact arithmetic the zero-blend retry can fire at most once (a
second zero blend would force the two operands to be equal and zero, which the
first branch already returned on), so any fuel `≥ 2` realizes the source's
unbounded recursion; the fuel-exhausted value is the identity quaternion. -/
def lerpFuel (ε : α) (sq : α → α) : ℕ → Quat α → Quat α → α → Quat α
  | 0, _, _, _ => ⟨1, 0, 0, 0⟩
  | n + 1, a, b, t =>
    if Quat.isZero b ∧ Quat.isZero a then ⟨1, 0, 0, 0⟩
    else
      if Quat.isZero (Quat.addQ (Quat.smulQ (1 - t) a) (Quat.smulQ t b)) then
        lerpFuel ε sq n a b (nudge ε t)
      else Quat.normalizeQ sq (Quat.addQ (Quat.smulQ (1 - t) a) (Quat.smulQ t b))

/-- `Quaternion::lerp` at the recursion depth the source can actually reach. -/
def lerp (ε : α) (sq : α → α) (a b : Quat α) (t : α) : Quat α :=
  lerpFuel ε sq 2 a b t

/-- `f64::clamp(lo, hi)`. -/
def clampS (x lo hi : α) : α := if x < lo then lo else if x > hi then hi else x

/-- The clamped dot product from `Quaternion::slerp` (`rotations.rs` line 47). -/
def slerpDot (a b : Quat α) : α := clampS (Quat.dotQ a b) (-1) 1

/-- The sign-flipped second operand from `Quaternion::slerp` (line 48). -/
def slerpOther (a b : Quat α) : Quat α :=
  if slerpDot a b < 0 then Quat.negQ b else b

/-- `Quaternion::slerp` (`rotations.rs` lines 46-60).  `sn` and `ac` stand for
`f64::sin` and `f64::acos`. -/
def slerp (ε : α) (sq sn ac : α → α) (a b : Quat α) (t : α) : Quat α :=
  if |sn (ac (slerpDot a b))| ≤ 10 * ε then lerp ε sq a (slerpOther a b) t
  else
    Quat.normalizeQ sq
      (Quat.sdivQ
        (Quat.addQ (Quat.smulQ (sn ((1 - t) * ac (slerpDot a b))) a)
          (Quat.smulQ (sn (t * ac (slerpDot a b))) (slerpOther a b)))
        (sn (ac (slerpDot a b))))

theorem quat_normSq_nonneg (a : Quat α) : 0 ≤ Quat.normSq a := by
  have hw := mul_self_nonneg a.w
  have hx := mul_self_nonneg a.x
  have hy := mul_self_nonneg a.y
  have hz := mul_self_nonneg a.z
  simp only [Quat.normSq]; linarith

theorem quat_normSq_pos {a : Quat α} (h : ¬Quat.isZero a) :
    0 < Quat.normSq a := by
  rcases lt_or_eq_of_le (quat_normSq_nonneg a) with hlt | heq
  · exact hlt
  · exfalso
    apply h
    have hw := mul_self_nonneg a.w
    have hx := mul_self_nonneg a.x
    have hy := mul_self_nonneg a.y
    have hz := mul_self_nonneg a.z
    simp only [Quat.normSq] at heq
    exact ⟨mul_self_eq_zero.mp (le_antisymm (by linarith) hw),
      mul_self_eq_zero.mp (le_antisymm (by linarith) hx),
      mul_self_eq_zero.mp (le_antisymm (by linarith) hy),
      mul_self_eq_zero.mp (le_antisymm (by linarith) hz)⟩

/-- Normalisation of a nonzero quaternion has norm exactly 1. -/
theorem quat_normalize_norm_one {a : Quat ℝ} (h : ¬Quat.isZero a) :
    Quat.qnorm Real.sqrt (Quat.normalizeQ Real.sqrt a) = 1 := by
  have hpos := quat_normSq_pos h
  have hs : Quat.normSq (Quat.normalizeQ Real.sqrt a) = 1 := by
    have hexp : Quat.normSq (Quat.normalizeQ Real.sqrt a) =
        Quat.normSq a / Real.sqrt (Quat.normSq a) ^ 2 := by
      simp only [Quat.normalizeQ, Quat.normSq]
      field_simp
      ring
    rw [hexp, Real.sq_sqrt hpos.le, div_self (ne_of_gt hpos)]
  rw [Quat.qnorm, hs, Real.sqrt_one]

theorem lerpFuel_norm_one (n : ℕ) (a b : Quat ℝ) (t : ℝ) :
    Quat.qnorm Real.sqrt (lerpFuel machineEps Real.sqrt n a b t) = 1 := by
  induction n generalizing a b t with
  | zero =>
    rw [lerpFuel, Quat.qnorm]
    norm_num [Quat.normSq]
  | succ n ih =>
    rw [lerpFuel]
    split_ifs with h1 h2
    · rw [Quat.qnorm]; norm_num [Quat.normSq]
    · exact ih a b (nudge machineEps t)
    · exact quat_normalize_norm_one h2

/-- Every value returned by `Quaternion::lerp` has norm exactly 1
(unconditionally: the degenerate all-zero and zero-blend cases return the
identity quaternion or retry with a nudged parameter). -/
theorem lerp_norm_one (a b : Quat ℝ) (t : ℝ) :
    Quat.qnorm Real.sqrt (lerp machineEps Real.sqrt a b t) = 1 :=
  lerpFuel_norm_one 2 a b t

theorem clampS_neg_iff {x : α} : clampS x (-1) 1 < 0 ↔ x < 0 := by
  unfold clampS
  split_ifs with h1 h2 <;> constructor <;> intro h <;> linarith

theorem quat_negQ_not_isZero {b : Quat α} (h : ¬Quat.isZero b) :
    ¬Quat.isZero (Quat.negQ b) := by
  simp only [Quat.isZero, Quat.negQ, neg_eq_zero] at h ⊢
  exact h

theorem quat_sdivQ_not_isZero {a : Quat α} {c : α} (hc : c ≠ 0)
    (h : ¬Quat.isZero a) : ¬Quat.isZero (Quat.sdivQ a c) := by
  simp only [Quat.isZero, Quat.sdivQ, div_eq_zero_iff] at h ⊢
  tauto

theorem dotQ_negQ (a b : Quat α) :
    Quat.dotQ a (Quat.negQ b) = -Quat.dotQ a b := by
  simp only [Quat.dotQ, Quat.negQ]; ring

/-- The slerp blend `a·q1 + b·q2` with nonnegative coefficients, not both
zero, applied to nonzero quaternions with nonnegative mutual dot product, is
nonzero. -/
theorem quat_blend_not_isZero {q1 o : Quat ℝ} {a b : ℝ}
    (hq1 : ¬Quat.isZero q1) (ho : ¬Quat.isZero o)
    (ha : 0 ≤ a) (hb : 0 ≤ b) (hdot : 0 ≤ Quat.dotQ q1 o)
    (hab : ¬(a = 0 ∧ b = 0)) :
    ¬Quat.isZero (Quat.addQ (Quat.smulQ a q1) (Quat.smulQ b o)) := by
  intro hz
  obtain ⟨h1, h2, h3, h4⟩ := hz
  simp only [Quat.addQ, Quat.smulQ] at h1 h2 h3 h4
  have key1 : a * Quat.dotQ q1 o + b * Quat.normSq o = 0 := by
    simp only [Quat.dotQ, Quat.normSq]
    linear_combination o.w * h1 + o.x * h2 + o.y * h3 + o.z * h4
  have key2 : a * Quat.normSq q1 + b * Quat.dotQ q1 o = 0 := by
    simp only [Quat.dotQ, Quat.normSq]
    linear_combination q1.w * h1 + q1.x * h2 + q1.y * h3 + q1.z * h4
  have hnq1 := quat_normSq_pos hq1
  have hno := quat_normSq_pos ho
  rcases lt_or_eq_of_le hb with hbpos | hb0
  · nlinarith [mul_nonneg ha hdot, mul_pos hbpos hno]
  · have hapos : 0 < a := by
      rcases lt_or_eq_of_le ha with h | h
      · exact h
      · exact absurd ⟨h.symm, hb0.symm⟩ hab
    nlinarith [mul_pos hapos hnq1]

theorem sin_eq_zero_on_Ico {x : ℝ} (h0 : 0 ≤ x) (hπ : x < Real.pi)
    (hs : Real.sin x = 0) : x = 0 := by
  by_contra hne
  exact ne_of_gt
    (Real.sin_pos_of_pos_of_lt_pi (lt_of_le_of_ne h0 (Ne.symm hne)) hπ) hs

/-- Every value returned by `Quaternion::slerp` on nonzero operands with
interpolation parameter `t ∈ [0, 1]` has norm exactly 1. -/
theorem slerp_norm_one (q1 q2 : Quat ℝ) (t : ℝ)
    (hq1 : ¬Quat.isZero q1) (hq2 : ¬Quat.isZero q2)
    (ht0 : 0 ≤ t) (ht1 : t ≤ 1) :
    Quat.qnorm Real.sqrt
      (slerp machineEps Real.sqrt Real.sin Real.arccos q1 q2 t) = 1 := by
  rw [slerp]
  split_ifs with hbr
  · exact lerp_norm_one q1 (slerpOther q1 q2) t
  · -- main branch: the blend is nonzero, so normalisation gives norm 1
    push_neg at hbr
    have hepos : (0 : ℝ) < 10 * machineEps := by norm_num [machineEps]
    have hsin_ne : Real.sin (Real.arccos (slerpDot q1 q2)) ≠ 0 := by
      intro h0
      rw [h0] at hbr
      simp at hbr
      linarith
    set ω := Real.arccos (slerpDot q1 q2) with hω
    have hω0 : 0 ≤ ω := Real.arccos_nonneg _
    have hωπ : ω ≤ Real.pi := Real.arccos_le_pi _
    have hωltπ : ω < Real.pi :=
      lt_of_le_of_ne hωπ (fun h => hsin_ne (by rw [h, Real.sin_pi]))
    have hωpos : 0 < ω :=
      lt_of_le_of_ne hω0 (fun h => hsin_ne (by rw [← h, Real.sin_zero]))
    have ha0 : 0 ≤ Real.sin ((1 - t) * ω) := by
      apply Real.sin_nonneg_of_nonneg_of_le_pi
      · exact mul_nonneg (by linarith) hω0
      · calc (1 - t) * ω ≤ 1 * ω := by
              apply mul_le_mul_of_nonneg_right (by linarith) hω0
          _ = ω := one_mul ω
          _ ≤ Real.pi := hωπ
    have hb0 : 0 ≤ Real.sin (t * ω) := by
      apply Real.sin_nonneg_of_nonneg_of_le_pi
      · exact mul_nonneg ht0 hω0
      · calc t * ω ≤ 1 * ω := by
              apply mul_le_mul_of_nonneg_right ht1 hω0
          _ = ω := one_mul ω
          _ ≤ Real.pi := hωπ
    have hother : ¬Quat.isZero (slerpOther q1 q2) := by
      rw [slerpOther]
      split_ifs
      · exact quat_negQ_not_isZero hq2
      · exact hq2
    have hdot : 0 ≤ Quat.dotQ q1 (slerpOther q1 q2) := by
      rw [slerpOther]
      split_ifs with hneg
      · rw [dotQ_negQ]
        have : Quat.dotQ q1 q2 < 0 := clampS_neg_iff.mp hneg
        linarith
      · exact not_lt.mp fun h => hneg (clampS_neg_iff.mpr h)
    have hab : ¬(Real.sin ((1 - t) * ω) = 0 ∧ Real.sin (t * ω) = 0) := by
      rintro ⟨hA, hB⟩
      have hAz : (1 - t) * ω = 0 := by
        apply sin_eq_zero_on_Ico (mul_nonneg (by linarith) hω0) _ hA
        calc (1 - t) * ω ≤ 1 * ω :=
              mul_le_mul_of_nonneg_right (by linarith) hω0
          _ = ω := one_mul ω
          _ < Real.pi := hωltπ
      have hBz : t * ω = 0 := by
        apply sin_eq_zero_on_Ico (mul_nonneg ht0 hω0) _ hB
        calc t * ω ≤ 1 * ω := mul_le_mul_of_nonneg_right ht1 hω0
          _ = ω := one_mul ω
          _ < Real.pi := hωltπ
      rcases mul_eq_zero.mp hAz with h | h
      · rcases mul_eq_zero.mp hBz with h' | h'
        · linarith
        · exact absurd h' (ne_of_gt hωpos)
      · exact absurd h (ne_of_gt hωpos)
    exact quat_normalize_norm_one
      (quat_sdivQ_not_isZero hsin_ne
        (quat_blend_not_isZero hq1 hother ha0 hb0 hdot hab))

/-- C7 (amended): quaternion normalisation of a nonzero quaternion, `lerp` of
any two quaternions (including the degenerate all-zero and zero-blend cases),
and `slerp` of two nonzero quaternions with interpolation parameter
`t ∈ [0, 1]` all return quaternions of norm exactly 1 (hence within `1e-9` of
1); consequently any sequence of such calls preserves unit norm.  For `t`
outside `[0, 1]`, `slerp` can return the zero quaternion (see the
counterexample). -/
theorem quaternion_unit_norm_preservation :
    (∀ q : Quat ℝ, ¬Quat.isZero q →
      Quat.qnorm Real.sqrt (Quat.normalizeQ Real.sqrt q) = 1) ∧
    (∀ (q1 q2 : Quat ℝ) (t : ℝ),
      Quat.qnorm Real.sqrt (lerp machineEps Real.sqrt q1 q2 t) = 1) ∧
    (∀ (q1 q2 : Quat ℝ) (t : ℝ), ¬Quat.isZero q1 → ¬Quat.isZero q2 →
      0 ≤ t → t ≤ 1 →
      Quat.qnorm Real.sqrt
        (slerp machineEps Real.sqrt Real.sin Real.arccos q1 q2 t) = 1) :=
  ⟨fun _ h => quat_normalize_norm_one h, lerp_norm_one,
   fun q1 q2 t h1 h2 h3 h4 => slerp_norm_one q1 q2 t h1 h2 h3 h4⟩

/-- Witness for C7 at concrete inputs. -/
theorem quaternion_unit_norm_preservation_witness :
    Quat.qnorm Real.sqrt (Quat.normalizeQ Real.sqrt ⟨2, 0, 0, 0⟩) = 1 ∧
    Quat.qnorm Real.sqrt
      (lerp machineEps Real.sqrt ⟨1, 0, 0, 0⟩ ⟨0, 1, 0, 0⟩ (1/2)) = 1 ∧
    Quat.qnorm Real.sqrt
      (slerp machineEps Real.sqrt Real.sin Real.arccos
        ⟨1, 0, 0, 0⟩ ⟨0, 1, 0, 0⟩ 0) = 1 :=
  ⟨quaternion_unit_norm_preservation.1 ⟨2, 0, 0, 0⟩
      (by norm_num [Quat.isZero]),
   quaternion_unit_norm_preservation.2.1 ⟨1, 0, 0, 0⟩ ⟨0, 1, 0, 0⟩ (1/2),
   quaternion_unit_norm_preservation.2.2 ⟨1, 0, 0, 0⟩ ⟨0, 1, 0, 0⟩ 0
      (by norm_num [Quat.isZero]) (by norm_num [Quat.isZero])
      (by norm_num) (by norm_num)⟩

/-- C7 (counterexample to the claim as stated, which does not restrict the
interpolation parameter): `slerp` of the nonzero quaternions `(1,0,0,0)` and
`(√2/2,0,0,0)` at `t = 2` takes the main branch (`ω = π/4`,
`|sin ω| = √2/2 > 10ε`), where the blend
`sin(−π/4)·q1 + sin(π/2)·q2` is exactly the zero vector, and normalising it
returns the zero quaternion: the result has norm 0, not within `1e-9` of 1. -/
theorem quaternion_slerp_counterexample :
    ¬Quat.isZero (⟨1, 0, 0, 0⟩ : Quat ℝ) ∧
    ¬Quat.isZero (⟨Real.sqrt 2 / 2, 0, 0, 0⟩ : Quat ℝ) ∧
    Quat.qnorm Real.sqrt
      (slerp machineEps Real.sqrt Real.sin Real.arccos
        ⟨1, 0, 0, 0⟩ ⟨Real.sqrt 2 / 2, 0, 0, 0⟩ 2) = 0 ∧
    ¬(|Quat.qnorm Real.sqrt
        (slerp machineEps Real.sqrt Real.sin Real.arccos
          ⟨1, 0, 0, 0⟩ ⟨Real.sqrt 2 / 2, 0, 0, 0⟩ 2) - 1| ≤ 1 / 10 ^ 9) := by
  have hs2pos : (0 : ℝ) < Real.sqrt 2 := Real.sqrt_pos.mpr (by norm_num)
  have hs2gt1 : (1 : ℝ) < Real.sqrt 2 := by
    rw [show (1 : ℝ) = Real.sqrt 1 from (Real.sqrt_one).symm]
    exact Real.sqrt_lt_sqrt (by norm_num) (by norm_num)
  have hs2lt2 : Real.sqrt 2 < 2 := by
    nlinarith [Real.sq_sqrt (show (0:ℝ) ≤ 2 by norm_num),
      Real.sqrt_nonneg 2]
  have hdotv : Quat.dotQ (⟨1, 0, 0, 0⟩ : Quat ℝ) ⟨Real.sqrt 2 / 2, 0, 0, 0⟩ =
      Real.sqrt 2 / 2 := by
    simp [Quat.dotQ]
  have hsd : slerpDot (⟨1, 0, 0, 0⟩ : Quat ℝ) ⟨Real.sqrt 2 / 2, 0, 0, 0⟩ =
      Real.sqrt 2 / 2 := by
    rw [slerpDot, hdotv, clampS, if_neg (by linarith), if_neg (by
      rw [not_lt]; linarith)]
  have hω : Real.arccos (Real.sqrt 2 / 2) = Real.pi / 4 := by
    rw [← Real.cos_pi_div_four]
    exact Real.arccos_cos (by positivity)
      (by linarith [Real.pi_pos, Real.pi_le_four])
  have hsin4 : Real.sin (Real.pi / 4) = Real.sqrt 2 / 2 :=
    Real.sin_pi_div_four
  have hother : slerpOther (⟨1, 0, 0, 0⟩ : Quat ℝ)
      ⟨Real.sqrt 2 / 2, 0, 0, 0⟩ = ⟨Real.sqrt 2 / 2, 0, 0, 0⟩ := by
    rw [slerpOther, hsd, if_neg (by rw [not_lt]; positivity)]
  have hz1 : ¬Quat.isZero (⟨1, 0, 0, 0⟩ : Quat ℝ) := by
    norm_num [Quat.isZero]
  have hz2 : ¬Quat.isZero (⟨Real.sqrt 2 / 2, 0, 0, 0⟩ : Quat ℝ) := by
    simp only [Quat.isZero, not_and]
    intro h
    exact absurd h (by positivity)
  have hmain : Quat.qnorm Real.sqrt
      (slerp machineEps Real.sqrt Real.sin Real.arccos
        ⟨1, 0, 0, 0⟩ ⟨Real.sqrt 2 / 2, 0, 0, 0⟩ 2) = 0 := by
    rw [slerp, hsd, hω, if_neg (by
      rw [hsin4, not_le, abs_of_pos (by positivity)]
      rw [machineEps]
      calc (10 : ℝ) * (1 / 2 ^ 52) ≤ 1 / 2 := by norm_num
        _ < Real.sqrt 2 / 2 := by linarith)]
    rw [hother]
    have hsA : Real.sin ((1 - 2) * (Real.pi / 4)) = -(Real.sqrt 2 / 2) := by
      rw [show ((1 : ℝ) - 2) * (Real.pi / 4) = -(Real.pi / 4) by ring,
        Real.sin_neg, hsin4]
    have hsB : Real.sin ((2 : ℝ) * (Real.pi / 4)) = 1 := by
      rw [show (2 : ℝ) * (Real.pi / 4) = Real.pi / 2 by ring,
        Real.sin_pi_div_two]
    rw [hsA, hsB]
    have hblend : Quat.addQ
        (Quat.smulQ (-(Real.sqrt 2 / 2)) (⟨1, 0, 0, 0⟩ : Quat ℝ))
        (Quat.smulQ 1 ⟨Real.sqrt 2 / 2, 0, 0, 0⟩) = ⟨0, 0, 0, 0⟩ := by
      simp only [Quat.addQ, Quat.smulQ]
      norm_num
    rw [hblend]
    simp only [Quat.sdivQ, Quat.normalizeQ, Quat.normSq, Quat.qnorm]
    norm_num
  exact ⟨hz1, hz2, hmain, by rw [hmain]; norm_num⟩

end Phyeston
